import Mathlib

/-!
# URL-Shortener: a verification development of `script.js`

The class `URLShortener` of `script.js` is embedded function by function.

* JavaScript strings are sequences of UTF-16 code units (`JSString`).
* 32-bit integer operators (`<<`, `&`) are modelled on `Int` with an explicit
  wrap to the signed 32-bit range (`toInt32`).
* The network is a parameter: every provider closure of `shortenWithAPI` is
  given by the outcome of awaiting it.
* `localStorage` is a record of the raw string entries the program uses, and
  `JSON.parse` / `JSON.stringify` are modelled on the JSON grammar.
-/

set_option maxRecDepth 100000

namespace URLShortener

/-! ## Strings -/

/-- A JavaScript string, as the sequence of its UTF-16 code units. -/
abbrev JSString := List Nat

/-- UTF-16 code units of one Unicode scalar value. -/
def utf16 (c : Char) : JSString :=
  if c.toNat < 65536 then [c.toNat]
  else [55296 + (c.toNat - 65536) / 1024, 56320 + (c.toNat - 65536) % 1024]

/-- The JavaScript string written by a string literal. -/
def js (s : String) : JSString := s.toList.flatMap utf16

/-! ## `generateHash` (script.js, lines 218-226) -/

/-- ECMAScript `ToInt32` on an integral number: wrap to the signed 32-bit range. -/
def toInt32 (x : Int) : Int :=
  let m := x % 4294967296
  if m ≥ 2147483648 then m - 4294967296 else m

/-- The operator `a << 5`: `ToInt32 a`, shifted left by five bits, as a signed 32-bit integer. -/
def shl5 (a : Int) : Int := toInt32 (toInt32 a * 32)

/-- The operator `a & b` on signed 32-bit integers. -/
def bitAnd (a b : Int) : Int := Int.land (toInt32 a) (toInt32 b)

/-- One iteration of the loop body of `generateHash`:
`hash = ((hash << 5) - hash) + char; hash = hash & hash;`. -/
def hashStep (hash : Int) (char : Nat) : Int :=
  let hash := (shl5 hash - hash) + (char : Int)
  bitAnd hash hash

/-- The value of `hash` when the loop of `generateHash` ends. -/
def hashLoop (str : JSString) : Int := str.foldl hashStep 0

/-- The digit of `Number.prototype.toString(radix)` for a digit value: `0`-`9`, `a`-`z`. -/
def digitChar (d : Nat) : Nat := if d < 10 then 48 + d else 87 + d

/-- Digits of `n` in radix `b`, most significant first, pushed in front of `acc`. -/
def toRadixAux (b : Nat) : Nat → Nat → JSString → JSString
  | 0, _, acc => acc
  | fuel + 1, n, acc =>
    if n < b then digitChar n :: acc
    else toRadixAux b fuel (n / b) (digitChar (n % b) :: acc)

/-- The method call `n.toString(b)` for a non-negative integer `n`. -/
def toRadix (b n : Nat) : JSString := toRadixAux b (n + 1) n []

/-- The method `generateHash(str)`: `Math.abs(hash).toString(36)` after the loop. -/
def generateHash (str : JSString) : JSString := toRadix 36 (hashLoop str).natAbs

/-- The hash as the specification words it: `h0 = 0` and
`h(i+1) = h(i) * 31 + charCode(i)`, wrapped to a signed 32-bit integer at every step. -/
def specHash (str : JSString) : Int :=
  str.foldl (fun (h : Int) (c : Nat) => toInt32 (h * 31 + (c : Int))) 0

/-- A code unit that is one of the characters `0`-`9`, `a`-`z`. -/
def isBase36Char (c : Nat) : Prop := (48 ≤ c ∧ c ≤ 57) ∨ (97 ≤ c ∧ c ≤ 122)

instance (c : Nat) : Decidable (isBase36Char c) := by unfold isBase36Char; infer_instance

/-! ## `shortenWithAPI` and `createFallbackURL` (script.js, lines 170-216) -/

/-- What awaiting one provider closure `() => fetch(...).then(r => r.text())` gives:
the promise rejects (network error, `encodeURIComponent` throwing, body unreadable),
or it resolves to the text of the response body. -/
inductive Response
  | rejected
  | text (body : JSString)

/-- A provider closure of the array `apis`, given by its outcome for a long URL. -/
abbrev ApiCall := JSString → Response

/-- The test `result && result.startsWith('http')`. -/
def accepted (result : JSString) : Bool :=
  result ≠ [] && (js "http").isPrefixOf result

/-- The method `createFallbackURL(longURL)`, with `window.location.origin` as `origin`. -/
def createFallbackURL (origin longURL : JSString) : JSString :=
  let hash := generateHash longURL
  origin ++ js "/s/" ++ hash

/-- The loop `for (const apiCall of apis)` of `shortenWithAPI`, from the provider at
position `i` on. `invoked` lists the positions of the providers called so far. The
result is the value returned from inside the loop, if any, and the providers called. -/
def tryApis : List ApiCall → JSString → Nat → List Nat → Option JSString × List Nat
  | [], _, _, invoked => (none, invoked)
  | apiCall :: rest, longURL, i, invoked =>
    match apiCall longURL with
    | .text result =>
      if accepted result then (some result, invoked ++ [i])
      else tryApis rest longURL (i + 1) (invoked ++ [i])
    | .rejected => tryApis rest longURL (i + 1) (invoked ++ [i])

/-- The method `shortenWithAPI(longURL)` over the provider array `apis` (in the source:
TinyURL, is.gd, v.gd): the returned short URL and the positions of the providers it
called, in call order. -/
def shortenWithAPI (apis : List ApiCall) (origin longURL : JSString) : JSString × List Nat :=
  match tryApis apis longURL 0 [] with
  | (some result, invoked) => (result, invoked)
  | (none, invoked) => (createFallbackURL origin longURL, invoked)

/-- A provider call fails: it throws, or its response is empty or does not start
with `http`. -/
def fails (apiCall : ApiCall) (longURL : JSString) : Prop :=
  match apiCall longURL with
  | .rejected => True
  | .text result => accepted result = false

/-! ## JSON: values, `JSON.stringify`, `JSON.parse` -/

/-- How a JavaScript operation ends abnormally. `outsideModel` is not a JavaScript
exception: it marks the inputs on which this embedding does not follow the program
(numbers that are not integers of magnitude at most 2^53, where IEEE doubles stop
being exact, and string coercions of arrays and objects). -/
inductive JSError
  | syntaxError
  | typeError
  | outsideModel
  deriving DecidableEq

/-- The values `JSON.parse` can return. Numbers are integers (see `JSError.outsideModel`);
an object is the list of its members in insertion order, with distinct keys. JavaScript
enumerates array-index keys first, which changes the order of the members in a
serialised text and no lookup. -/
inductive JSValue
  | null
  | bool (b : Bool)
  | num (n : Int)
  | str (s : JSString)
  | arr (items : List JSValue)
  | obj (members : List (JSString × JSValue))

/-- The largest magnitude up to which every integer is an IEEE double: 2^53. -/
def maxSafe : Nat := 9007199254740992

/-- The string of an integral number: `Number::toString`, radix 10. -/
def intToString (n : Int) : JSString :=
  if n < 0 then 45 :: toRadix 10 n.natAbs else toRadix 10 n.natAbs

/-- The escape `\uXXXX` of a code unit, with lower-case hexadecimal digits. -/
def unicodeEscape (c : Nat) : JSString :=
  [92, 117, digitChar (c / 4096 % 16), digitChar (c / 256 % 16), digitChar (c / 16 % 16),
    digitChar (c % 16)]

/-- A leading (high) surrogate code unit. -/
def isHighSurrogate (c : Nat) : Bool := 55296 ≤ c && c ≤ 56319

/-- A trailing (low) surrogate code unit. -/
def isLowSurrogate (c : Nat) : Bool := 56320 ≤ c && c ≤ 57343

/-- The text `QuoteJSONString` writes for a code unit that is not part of a surrogate pair. -/
def quoteUnit (c : Nat) : JSString :=
  if c = 8 then [92, 98]
  else if c = 9 then [92, 116]
  else if c = 10 then [92, 110]
  else if c = 12 then [92, 102]
  else if c = 13 then [92, 114]
  else if c = 34 then [92, 34]
  else if c = 92 then [92, 92]
  else if c < 32 then unicodeEscape c
  else if isHighSurrogate c || isLowSurrogate c then unicodeEscape c
  else [c]

/-- The characters `QuoteJSONString` writes between the two quotation marks: a surrogate
pair is copied, a lone surrogate is escaped. -/
def quoteBody : JSString → JSString
  | [] => []
  | [c] => quoteUnit c
  | c :: d :: rest =>
    if isHighSurrogate c && isLowSurrogate d then c :: d :: quoteBody rest
    else quoteUnit c ++ quoteBody (d :: rest)

/-- The abstract operation `QuoteJSONString`. -/
def quote (s : JSString) : JSString := 34 :: (quoteBody s ++ [34])

mutual
/-- The function `JSON.stringify(value)` on a value made of `JSON.parse` results. -/
def stringify : JSValue → JSString
  | .null => js "null"
  | .bool true => js "true"
  | .bool false => js "false"
  | .num n => intToString n
  | .str s => quote s
  | .arr [] => [91, 93]
  | .arr (v :: rest) => 91 :: (stringify v ++ stringifyItems rest)
  | .obj [] => [123, 125]
  | .obj ((k, v) :: rest) => 123 :: (quote k ++ 58 :: (stringify v ++ stringifyMembers rest))
/-- The elements of an array after the first, each behind a comma, and the closing bracket. -/
def stringifyItems : List JSValue → JSString
  | [] => [93]
  | v :: rest => 44 :: (stringify v ++ stringifyItems rest)
/-- The members of an object after the first, each behind a comma, and the closing brace. -/
def stringifyMembers : List (JSString × JSValue) → JSString
  | [] => [125]
  | (k, v) :: rest => 44 :: (quote k ++ 58 :: (stringify v ++ stringifyMembers rest))
end

/-- The tokens of a JSON text. -/
inductive Token
  | lbrace
  | rbrace
  | lbracket
  | rbracket
  | colon
  | comma
  | str (s : JSString)
  | num (n : Int)
  | true
  | false
  | null

/-- Where the tokeniser stands inside a JSON text. Strings are collected in reverse. -/
inductive LexMode
  | start
  | inStr (racc : JSString)
  | esc (racc : JSString)
  | hex (racc : JSString) (k : Nat) (val : Nat)
  | minus
  | zero (neg : Bool)
  | int (neg : Bool) (val : Nat)
  | word (rest : JSString) (tok : Token)

/-- The state of the tokeniser: its mode and the tokens read so far, last first. -/
abbrev LexState := LexMode × List Token

/-- A decimal digit. -/
def isDigit (c : Nat) : Bool := 48 ≤ c && c ≤ 57

/-- The value of a hexadecimal digit, upper or lower case. -/
def hexValue (c : Nat) : Option Nat :=
  if 48 ≤ c ∧ c ≤ 57 then some (c - 48)
  else if 97 ≤ c ∧ c ≤ 102 then some (c - 87)
  else if 65 ≤ c ∧ c ≤ 70 then some (c - 55)
  else none

/-- The code unit a single-character escape stands for. -/
def unescape (c : Nat) : Option Nat :=
  if c = 34 then some 34
  else if c = 92 then some 92
  else if c = 47 then some 47
  else if c = 98 then some 8
  else if c = 102 then some 12
  else if c = 110 then some 10
  else if c = 114 then some 13
  else if c = 116 then some 9
  else none

/-- The tokeniser between two tokens. -/
def startStep (toks : List Token) (c : Nat) : Except JSError LexState :=
  if c = 32 ∨ c = 9 ∨ c = 10 ∨ c = 13 then .ok (.start, toks)
  else if c = 123 then .ok (.start, .lbrace :: toks)
  else if c = 125 then .ok (.start, .rbrace :: toks)
  else if c = 91 then .ok (.start, .lbracket :: toks)
  else if c = 93 then .ok (.start, .rbracket :: toks)
  else if c = 58 then .ok (.start, .colon :: toks)
  else if c = 44 then .ok (.start, .comma :: toks)
  else if c = 34 then .ok (.inStr [], toks)
  else if c = 45 then .ok (.minus, toks)
  else if c = 48 then .ok (.zero Bool.false, toks)
  else if isDigit c then .ok (.int Bool.false (c - 48), toks)
  else if c = 116 then .ok (.word (js "rue") .true, toks)
  else if c = 102 then .ok (.word (js "alse") .false, toks)
  else if c = 110 then .ok (.word (js "ull") .null, toks)
  else .error .syntaxError

/-- The number token of a finished integer literal. -/
def emitNum (neg : Bool) (val : Nat) (toks : List Token) : Except JSError (List Token) :=
  if val ≤ maxSafe then .ok (.num (if neg then -(val : Int) else (val : Int)) :: toks)
  else .error .outsideModel

/-- The tokeniser reads one code unit. -/
def lexStep : LexState → Nat → Except JSError LexState
  | (.start, toks), c => startStep toks c
  | (.inStr racc, toks), c =>
    if c = 34 then .ok (.start, .str racc.reverse :: toks)
    else if c = 92 then .ok (.esc racc, toks)
    else if c < 32 then .error .syntaxError
    else .ok (.inStr (c :: racc), toks)
  | (.esc racc, toks), c =>
    if c = 117 then .ok (.hex racc 0 0, toks)
    else match unescape c with
      | some u => .ok (.inStr (u :: racc), toks)
      | none => .error .syntaxError
  | (.hex racc k val, toks), c =>
    match hexValue c with
    | some d =>
      if k = 3 then .ok (.inStr ((val * 16 + d) :: racc), toks)
      else .ok (.hex racc (k + 1) (val * 16 + d), toks)
    | none => .error .syntaxError
  | (.minus, toks), c =>
    if c = 48 then .ok (.zero Bool.true, toks)
    else if isDigit c then .ok (.int Bool.true (c - 48), toks)
    else .error .syntaxError
  | (.zero neg, toks), c =>
    if isDigit c then .error .syntaxError
    else if c = 46 ∨ c = 101 ∨ c = 69 then .error .outsideModel
    else match emitNum neg 0 toks with
      | .ok toks => startStep toks c
      | .error e => .error e
  | (.int neg val, toks), c =>
    if isDigit c then .ok (.int neg (val * 10 + (c - 48)), toks)
    else if c = 46 ∨ c = 101 ∨ c = 69 then .error .outsideModel
    else match emitNum neg val toks with
      | .ok toks => startStep toks c
      | .error e => .error e
  | (.word rest tok, toks), c =>
    match rest with
    | [] => .error .syntaxError
    | [x] => if c = x then .ok (.start, tok :: toks) else .error .syntaxError
    | x :: rest => if c = x then .ok (.word rest tok, toks) else .error .syntaxError

/-- The tokeniser reads a text from a state. -/
def lexRun : LexState → JSString → Except JSError LexState
  | st, [] => .ok st
  | st, c :: rest =>
    match lexStep st c with
    | .ok st => lexRun st rest
    | .error e => .error e

/-- The tokens read when the text ends, first token first. -/
def lexFinish : LexState → Except JSError (List Token)
  | (.start, toks) => .ok toks.reverse
  | (.zero neg, toks) => (emitNum neg 0 toks).map List.reverse
  | (.int neg val, toks) => (emitNum neg val toks).map List.reverse
  | _ => .error .syntaxError

/-- The tokens of a JSON text. -/
def tokenize (text : JSString) : Except JSError (List Token) :=
  match lexRun (.start, []) text with
  | .ok st => lexFinish st
  | .error e => .error e

/-- An enclosing array or object under construction: the elements read so far, or the
members read so far and the key whose value is being read. -/
inductive Frame
  | arr (items : List JSValue)
  | obj (members : List (JSString × JSValue)) (key : JSString)

/-- Where the parser stands in the grammar; `stack` holds the enclosing containers,
innermost first. -/
inductive ParseState
  | value (stack : List Frame)
  | arrStart (stack : List Frame)
  | afterItem (stack : List Frame) (items : List JSValue)
  | objStart (stack : List Frame)
  | key (stack : List Frame) (members : List (JSString × JSValue))
  | colon (stack : List Frame) (members : List (JSString × JSValue)) (key : JSString)
  | afterMember (stack : List Frame) (members : List (JSString × JSValue))
  | done (v : JSValue)

/-- The assignment `object[key] = v` on the members of an object: an existing member
keeps its place and takes the value, a new one goes last. -/
def setProp : List (JSString × JSValue) → JSString → JSValue → List (JSString × JSValue)
  | [], key, v => [(key, v)]
  | (k, w) :: rest, key, v =>
    if k = key then (k, v) :: rest else (k, w) :: setProp rest key v

/-- A finished value goes to the innermost enclosing container. -/
def deliver (v : JSValue) : List Frame → ParseState
  | [] => .done v
  | .arr items :: stack => .afterItem stack (items ++ [v])
  | .obj members key :: stack => .afterMember stack (setProp members key v)

/-- The parser reads the first token of a value. -/
def valueStep (stack : List Frame) : Token → Except JSError ParseState
  | .lbrace => .ok (.objStart stack)
  | .lbracket => .ok (.arrStart stack)
  | .str s => .ok (deliver (.str s) stack)
  | .num n => .ok (deliver (.num n) stack)
  | .true => .ok (deliver (.bool Bool.true) stack)
  | .false => .ok (deliver (.bool Bool.false) stack)
  | .null => .ok (deliver .null stack)
  | _ => .error .syntaxError

/-- The parser reads one token. -/
def parseStep : ParseState → Token → Except JSError ParseState
  | .value stack, t => valueStep stack t
  | .arrStart stack, .rbracket => .ok (deliver (.arr []) stack)
  | .arrStart stack, t => valueStep (.arr [] :: stack) t
  | .afterItem stack items, .comma => .ok (.value (.arr items :: stack))
  | .afterItem stack items, .rbracket => .ok (deliver (.arr items) stack)
  | .objStart stack, .rbrace => .ok (deliver (.obj []) stack)
  | .objStart stack, .str k => .ok (.colon stack [] k)
  | .key stack members, .str k => .ok (.colon stack members k)
  | .colon stack members k, .colon => .ok (.value (.obj members k :: stack))
  | .afterMember stack members, .comma => .ok (.key stack members)
  | .afterMember stack members, .rbrace => .ok (deliver (.obj members) stack)
  | _, _ => .error .syntaxError

/-- The parser reads the remaining tokens from a state. -/
def parseRun : ParseState → List Token → Except JSError JSValue
  | .done v, [] => .ok v
  | _, [] => .error .syntaxError
  | st, t :: rest =>
    match parseStep st t with
    | .ok st => parseRun st rest
    | .error e => .error e

/-- The function `JSON.parse(text)`: the value of a JSON text, or `SyntaxError`. -/
def JSON.parse (text : JSString) : Except JSError JSValue :=
  match tokenize text with
  | .ok toks => parseRun (.value []) toks
  | .error e => .error e

/-! ## `localStorage` and the history and mapping methods (script.js, lines 196-209, 271-389) -/

/-- The entries of `localStorage` the methods below read and write: `getItem` gives
`none` for a missing entry (JavaScript `null`). -/
structure Storage where
  urlHistory : Option JSString
  customMappings : Option JSString

/-- The value of a key among the members of an object (`none` is `undefined`). -/
def lookup : List (JSString × JSValue) → JSString → Option JSValue
  | [], _ => none
  | (k, v) :: rest, key => if k = key then some v else lookup rest key

/-- The property read `item.key`, for a key that no built-in prototype defines
(`id`, `shortURL`, `clicks`): `TypeError` on `null`, the member of an object,
`undefined` on anything else. -/
def getField : JSValue → JSString → Except JSError (Option JSValue)
  | .null, _ => .error .typeError
  | .obj members, key => .ok (lookup members key)
  | _, _ => .ok none

/-- The method `getHistory()`: `history ? JSON.parse(history) : []`. -/
def getHistory (ls : Storage) : Except JSError JSValue :=
  match ls.urlHistory with
  | none => .ok (.arr [])
  | some history => if history = [] then .ok (.arr []) else JSON.parse history

/-- The call `history.unshift(newItem)`: `TypeError` when `history` is not an array. -/
def unshift (history newItem : JSValue) : Except JSError JSValue :=
  match history with
  | .arr items => .ok (.arr (newItem :: items))
  | _ => .error .typeError

/-- The method `saveToHistory(longURL, shortURL)` up to and including
`localStorage.setItem`; `now` is the reading of `Date.now()` and `date` the string
`new Date().toISOString()`. The redrawing of the page is not modelled. -/
def saveToHistory (now : Nat) (date : JSString) (ls : Storage) (longURL shortURL : JSString) :
    Except JSError Storage :=
  match getHistory ls with
  | .error e => .error e
  | .ok history =>
    let newItem := JSValue.obj [(js "id", .num now), (js "longURL", .str longURL),
      (js "shortURL", .str shortURL), (js "date", .str date), (js "clicks", .num 0)]
    match unshift history newItem with
    | .error e => .error e
    | .ok history => .ok { ls with urlHistory := some (stringify history) }

/-- The callback `item => item.id !== id`, for a number `id`. -/
def idDiffers (id : Int) (item : JSValue) : Except JSError Bool :=
  match getField item (js "id") with
  | .error e => .error e
  | .ok (some (.num n)) => .ok (decide (n ≠ id))
  | .ok _ => .ok true

/-- The call `items.filter(keep)`, which stops at the first callback that throws. -/
def filterItems (keep : JSValue → Except JSError Bool) : List JSValue → Except JSError (List JSValue)
  | [] => .ok []
  | item :: rest =>
    match keep item with
    | .error e => .error e
    | .ok b =>
      match filterItems keep rest with
      | .error e => .error e
      | .ok kept => .ok (if b then item :: kept else kept)

/-- The method `deleteHistoryItem(id)` up to and including `localStorage.setItem`. -/
def deleteHistoryItem (id : Int) (ls : Storage) : Except JSError Storage :=
  match getHistory ls with
  | .error e => .error e
  | .ok (.arr items) =>
    match filterItems (idDiffers id) items with
    | .error e => .error e
    | .ok history => .ok { ls with urlHistory := some (stringify (.arr history)) }
  | .ok _ => .error .typeError

/-- The method `clearHistory()`; `confirmed` is the answer to the `confirm` dialog. -/
def clearHistory (confirmed : Bool) (ls : Storage) : Storage :=
  if confirmed then { ls with urlHistory := none } else ls

/-- The callback `h => h.shortURL === url`, for a string `url`. -/
def shortURLIs (url : JSString) (h : JSValue) : Except JSError Bool :=
  match getField h (js "shortURL") with
  | .error e => .error e
  | .ok (some (.str s)) => .ok (decide (s = url))
  | .ok _ => .ok false

/-- The call `items.find(test)`, as the position of the item found. -/
def findItem (test : JSValue → Except JSError Bool) : List JSValue → Except JSError (Option Nat)
  | [] => .ok none
  | item :: rest =>
    match test item with
    | .error e => .error e
    | .ok true => .ok (some 0)
    | .ok false =>
      match findItem test rest with
      | .error e => .error e
      | .ok none => .ok none
      | .ok (some i) => .ok (some (i + 1))

/-- The expression `(clicks || 0) + 1`, where `none` is `undefined`. -/
def clicksPlusOne : Option JSValue → Except JSError JSValue
  | none => .ok (.num 1)
  | some .null => .ok (.num 1)
  | some (.bool b) => .ok (.num (if b then 2 else 1))
  | some (.num n) =>
    if -(maxSafe : Int) ≤ n ∧ n < (maxSafe : Int) then .ok (.num (n + 1)) else .error .outsideModel
  | some (.str s) => if s = [] then .ok (.num 1) else .ok (.str (s ++ js "1"))
  | some (.arr _) => .error .outsideModel
  | some (.obj _) => .error .outsideModel

/-- The assignment `item.clicks = (item.clicks || 0) + 1` on the item found by `find`. -/
def addClick : JSValue → Except JSError JSValue
  | .obj members =>
    match clicksPlusOne (lookup members (js "clicks")) with
    | .error e => .error e
    | .ok clicks => .ok (.obj (setProp members (js "clicks") clicks))
  | _ => .error .typeError

/-- The body of the click listener of `addClickTracking()` for a click on a short-URL
link whose `href` is `url`, up to and including `localStorage.setItem`. -/
def recordClick (url : JSString) (ls : Storage) : Except JSError Storage :=
  match getHistory ls with
  | .error e => .error e
  | .ok (.arr items) =>
    match findItem (shortURLIs url) items with
    | .error e => .error e
    | .ok none => .ok ls
    | .ok (some i) =>
      match items.get? i with
      | none => .ok ls
      | some item =>
        match addClick item with
        | .error e => .error e
        | .ok item => .ok { ls with urlHistory := some (stringify (.arr (items.set i item))) }
  | .ok _ => .error .typeError

/-- The assignment `customMappings[customURL] = longURL` in strict mode, for a key
that contains `/`: `TypeError` on `null` and on primitive values; on an array it
creates a property that `JSON.stringify` does not write. -/
def assign (target : JSValue) (key : JSString) (v : JSValue) : Except JSError JSValue :=
  match target with
  | .obj members => .ok (.obj (setProp members key v))
  | .arr items => .ok (.arr items)
  | _ => .error .typeError

/-- The expression `JSON.parse(localStorage.getItem('customMappings') || '{}')` of
`createCustomURL`, which reads the mapping store: a missing or empty entry reads as
the text of the empty object. -/
def getMappings (ls : Storage) : Except JSError JSValue :=
  JSON.parse
    (match ls.customMappings with
     | none => js "\x7b\x7d"
     | some text => if text = [] then js "\x7b\x7d" else text)

/-- The method `createCustomURL(longURL, alias)`, with `window.location.origin` as
`origin` and the parameter `alias` as `aliasText`: the returned URL and the storage it
leaves. -/
def createCustomURL (origin : JSString) (ls : Storage) (longURL aliasText : JSString) :
    Except JSError (JSString × Storage) :=
  let domain := origin
  let customURL := domain ++ js "/" ++ aliasText
  match getMappings ls with
  | .error e => .error e
  | .ok customMappings =>
    match assign customMappings customURL (.str longURL) with
    | .error e => .error e
    | .ok customMappings =>
      .ok (customURL, { ls with customMappings := some (stringify customMappings) })

/-! ## Well-formed stores -/

/-- A history record as `saveToHistory` writes it. -/
structure HistoryRecord where
  id : Nat
  longURL : JSString
  shortURL : JSString
  date : JSString
  clicks : Nat

/-- The object of a history record. -/
def HistoryRecord.toJS (r : HistoryRecord) : JSValue :=
  .obj [(js "id", .num r.id), (js "longURL", .str r.longURL), (js "shortURL", .str r.shortURL),
    (js "date", .str r.date), (js "clicks", .num r.clicks)]

/-- The array of a history, most recent record first. -/
def historyToJS (h : List HistoryRecord) : JSValue := .arr (h.map HistoryRecord.toJS)

/-- The numbers of the record are integers that IEEE doubles hold exactly. -/
def HistoryRecord.Safe (r : HistoryRecord) : Prop := r.id ≤ maxSafe ∧ r.clicks ≤ maxSafe

/-- The member of a mapping object for a pair of a custom short URL and a long URL. -/
def mappingMember (kv : JSString × JSString) : JSString × JSValue := (kv.1, JSValue.str kv.2)

/-- The object of a mapping store: custom short URL to long URL. -/
def mappingToJS (m : List (JSString × JSString)) : JSValue := .obj (m.map mappingMember)

/-! ## Auxiliary definitions for the proofs -/

/-- The mode of the tokeniser after the decimal digits of `n`. -/
def numMode (n : Nat) : LexMode := if n = 0 then .zero false else .int false n

/-- A code unit that ends a number inside an array or an object. -/
def isDelimiter (d : Nat) : Prop := d = 44 ∨ d = 93 ∨ d = 125

/-- The tokens of the text of a history record. -/
def recordTokens (r : HistoryRecord) : List Token :=
  [.lbrace, .str (js "id"), .colon, .num r.id, .comma,
    .str (js "longURL"), .colon, .str r.longURL, .comma,
    .str (js "shortURL"), .colon, .str r.shortURL, .comma,
    .str (js "date"), .colon, .str r.date, .comma,
    .str (js "clicks"), .colon, .num r.clicks, .rbrace]

/-- The tokens of the records after the first and of the closing bracket. -/
def itemsTokens : List HistoryRecord → List Token
  | [] => [.rbracket]
  | r :: rest => .comma :: (recordTokens r ++ itemsTokens rest)

/-- The tokens of the text of a history. -/
def historyTokens : List HistoryRecord → List Token
  | [] => [.lbracket, .rbracket]
  | r :: rest => .lbracket :: (recordTokens r ++ itemsTokens rest)

/-- The tokens of the members after the first and of the closing brace. -/
def membersTokens : List (JSString × JSString) → List Token
  | [] => [.rbrace]
  | kv :: rest => .comma :: .str kv.1 :: .colon :: .str kv.2 :: membersTokens rest

/-- The tokens of the text of a mapping store. -/
def mappingTokens : List (JSString × JSString) → List Token
  | [] => [.lbrace, .rbrace]
  | kv :: rest => .lbrace :: .str kv.1 :: .colon :: .str kv.2 :: membersTokens rest

/-- The assignment `customMappings[key] = v` on a mapping store. -/
def setMapping : List (JSString × JSString) → JSString → JSString → List (JSString × JSString)
  | [], key, v => [(key, v)]
  | (k, w) :: rest, key, v =>
    if k = key then (k, v) :: rest else (k, w) :: setMapping rest key v

/-- The long URL a mapping store holds for a key. -/
def lookupMapping : List (JSString × JSString) → JSString → Option JSString
  | [], _ => none
  | (k, v) :: rest, key => if k = key then some v else lookupMapping rest key

/-- The history after a click on `url`: the first record whose short URL is `url` has one
more click. -/
def clickFirst (url : JSString) : List HistoryRecord → List HistoryRecord
  | [] => []
  | r :: rest =>
    if r.shortURL = url then { r with clicks := r.clicks + 1 } :: rest
    else r :: clickFirst url rest

/-- A history record used to instantiate the theorems. -/
def sampleRecord : HistoryRecord :=
  ⟨1700000000000, js "https://example.com/a", js "https://tinyurl.com/abc",
    js "2023-11-14T22:13:20.000Z", 2⟩

/-- A storage whose history entry is the text `saveToHistory` writes for `sampleRecord`. -/
def sampleStorage : Storage :=
  ⟨some (js ("[\x7b\"id\":1700000000000,\"longURL\":\"https://example.com/a\"," ++
      "\"shortURL\":\"https://tinyurl.com/abc\",\"date\":\"2023-11-14T22:13:20.000Z\"," ++
      "\"clicks\":2\x7d]")),
    some (js "\x7b\"https://short.example/docs\":\"https://example.com/old\"\x7d")⟩

/-- The record of a first append at the clock reading 1700000000000. -/
def firstAppend : HistoryRecord :=
  ⟨1700000000000, js "https://example.com/a", js "https://tinyurl.com/abc",
    js "2023-11-14T22:13:20.000Z", 0⟩

/-- The record of a second append at the same clock reading. -/
def secondAppend : HistoryRecord :=
  ⟨1700000000000, js "https://example.com/b", js "https://is.gd/xyz",
    js "2023-11-14T22:13:20.000Z", 0⟩

/-- The bound on the numbers `JSON.parse` returns in this embedding. -/
def safeInt (n : Int) : Prop := -(maxSafe : Int) ≤ n ∧ n ≤ (maxSafe : Int)

mutual
/-- A value as `JSON.parse` returns it: numbers within the bound, distinct keys in every
object. -/
def JSValue.Canonical : JSValue → Prop
  | .num n => safeInt n
  | .arr items => canonicalItems items
  | .obj members => (members.map Prod.fst).Nodup ∧ canonicalMembers members
  | _ => True
/-- Every element is canonical. -/
def canonicalItems : List JSValue → Prop
  | [] => True
  | v :: rest => v.Canonical ∧ canonicalItems rest
/-- The value of every member is canonical. -/
def canonicalMembers : List (JSString × JSValue) → Prop
  | [] => True
  | kv :: rest => kv.2.Canonical ∧ canonicalMembers rest
end

/-- A number token is within the bound. -/
def Token.Safe : Token → Prop
  | .num n => safeInt n
  | _ => True

/-- The token a word mode will emit is within the bound. -/
def LexMode.Safe : LexMode → Prop
  | .word _ tok => tok.Safe
  | _ => True

/-- The tokens read so far, and the one being read, are within the bound. -/
def LexState.Safe (st : LexState) : Prop := st.1.Safe ∧ ∀ t ∈ st.2, t.Safe

/-- The containers under construction hold canonical values under distinct keys. -/
def Frame.Canonical : Frame → Prop
  | .arr items => canonicalItems items
  | .obj members _ => (members.map Prod.fst).Nodup ∧ canonicalMembers members

/-- Everything the parser holds is canonical. -/
def ParseState.Canonical : ParseState → Prop
  | .value stack => ∀ f ∈ stack, f.Canonical
  | .arrStart stack => ∀ f ∈ stack, f.Canonical
  | .afterItem stack items => (∀ f ∈ stack, f.Canonical) ∧ canonicalItems items
  | .objStart stack => ∀ f ∈ stack, f.Canonical
  | .key stack members =>
    (∀ f ∈ stack, f.Canonical) ∧ (members.map Prod.fst).Nodup ∧ canonicalMembers members
  | .colon stack members _ =>
    (∀ f ∈ stack, f.Canonical) ∧ (members.map Prod.fst).Nodup ∧ canonicalMembers members
  | .afterMember stack members =>
    (∀ f ∈ stack, f.Canonical) ∧ (members.map Prod.fst).Nodup ∧ canonicalMembers members
  | .done v => v.Canonical

/-! ## Lemmas: hashing -/

theorem toInt32_emod (x : Int) : toInt32 x % 4294967296 = x % 4294967296 := by
  unfold toInt32
  simp only
  split <;> omega

theorem toInt32_congr {a b : Int} (h : a % 4294967296 = b % 4294967296) :
    toInt32 a = toInt32 b := by
  unfold toInt32
  simp only [h]

theorem int_land_self (a : Int) : Int.land a a = a := by
  cases a with
  | ofNat n => simp [Int.land]
  | negSucc n => simp [Int.land]

theorem bitAnd_self (a : Int) : bitAnd a a = toInt32 a := by
  unfold bitAnd
  exact int_land_self _

theorem hashStep_eq (hash : Int) (char : Nat) :
    hashStep hash char = toInt32 (hash * 31 + (char : Int)) := by
  unfold hashStep
  simp only [bitAnd_self, shl5]
  apply toInt32_congr
  have h1 := toInt32_emod (toInt32 hash * 32)
  have h2 := toInt32_emod hash
  omega

theorem hashLoop_eq_specHash (str : JSString) : hashLoop str = specHash str := by
  unfold hashLoop specHash
  have : hashStep = fun (h : Int) (c : Nat) => toInt32 (h * 31 + (c : Int)) := by
    funext h c
    exact hashStep_eq h c
  rw [this]

theorem digitChar_isBase36Char {d : Nat} (h : d < 36) : isBase36Char (digitChar d) := by
  unfold isBase36Char digitChar
  split <;> omega

theorem toRadixAux_ne_nil (b fuel n : Nat) (acc : JSString) :
    toRadixAux b (fuel + 1) n acc ≠ [] := by
  induction fuel generalizing n acc with
  | zero =>
    unfold toRadixAux
    split
    · simp
    · simp [toRadixAux]
  | succ k ih =>
    unfold toRadixAux
    split
    · simp
    · exact ih _ _

theorem toRadixAux_chars (fuel n : Nat) (acc : JSString)
    (hacc : ∀ c ∈ acc, isBase36Char c) :
    ∀ c ∈ toRadixAux 36 fuel n acc, isBase36Char c := by
  induction fuel generalizing n acc with
  | zero => simpa [toRadixAux] using hacc
  | succ k ih =>
    unfold toRadixAux
    split
    · intro c hc
      rcases List.mem_cons.mp hc with h | h
      · subst h
        exact digitChar_isBase36Char (by assumption)
      · exact hacc c h
    · apply ih
      intro c hc
      rcases List.mem_cons.mp hc with h | h
      · subst h
        exact digitChar_isBase36Char (Nat.mod_lt _ (by decide))
      · exact hacc c h

/-! ## Lemmas: the provider chain -/

theorem tryApis_all_fail (apis : List ApiCall) (longURL : JSString) (i : Nat) (invoked : List Nat)
    (h : ∀ apiCall ∈ apis, fails apiCall longURL) :
    tryApis apis longURL i invoked = (none, invoked ++ List.range' i apis.length) := by
  induction apis generalizing i invoked with
  | nil => simp [tryApis]
  | cons a rest ih =>
    have ha : fails a longURL := h a (List.mem_cons_self _ _)
    have hrest : ∀ apiCall ∈ rest, fails apiCall longURL :=
      fun b hb => h b (List.mem_cons_of_mem _ hb)
    unfold fails at ha
    unfold tryApis
    cases hr : a longURL with
    | rejected => simp [ih (i + 1) (invoked ++ [i]) hrest, List.range'_succ]
    | text result =>
      rw [hr] at ha
      simp at ha
      simp [ha, ih (i + 1) (invoked ++ [i]) hrest, List.range'_succ]

theorem tryApis_first_success (pre : List ApiCall) (p : ApiCall) (post : List ApiCall)
    (longURL result : JSString) (i : Nat) (invoked : List Nat)
    (hpre : ∀ apiCall ∈ pre, fails apiCall longURL)
    (hp : p longURL = .text result) (hacc : accepted result = true) :
    tryApis (pre ++ p :: post) longURL i invoked
      = (some result, invoked ++ List.range' i (pre.length + 1)) := by
  induction pre generalizing i invoked with
  | nil => simp [tryApis, hp, hacc]
  | cons a rest ih =>
    have ha : fails a longURL := hpre a (List.mem_cons_self _ _)
    have hrest : ∀ apiCall ∈ rest, fails apiCall longURL :=
      fun b hb => hpre b (List.mem_cons_of_mem _ hb)
    unfold fails at ha
    rw [List.cons_append]
    unfold tryApis
    cases hr : a longURL with
    | rejected =>
      simp only [ih (i + 1) (invoked ++ [i]) hrest, List.length_cons]
      simp [List.range'_succ]
    | text r =>
      rw [hr] at ha
      simp at ha
      simp only [ha, ih (i + 1) (invoked ++ [i]) hrest, List.length_cons]
      simp [List.range'_succ]

/-! ## Lemmas: radix digits -/

theorem toRadixAux_acc (b fuel n : Nat) (acc : JSString) :
    toRadixAux b fuel n acc = toRadixAux b fuel n [] ++ acc := by
  induction fuel generalizing n acc with
  | zero => simp [toRadixAux]
  | succ k ih =>
    unfold toRadixAux
    split
    · simp
    · rw [ih (n / b) (digitChar (n % b) :: acc), ih (n / b) [digitChar (n % b)]]
      simp

theorem toRadixAux_fuel (b : Nat) (hb : 2 ≤ b) (f1 f2 n : Nat) (h1 : n < f1) (h2 : n < f2) :
    toRadixAux b f1 n [] = toRadixAux b f2 n [] := by
  induction f1 generalizing f2 n with
  | zero => omega
  | succ k ih =>
    cases f2 with
    | zero => omega
    | succ m =>
      unfold toRadixAux
      split
      · rfl
      · have hlt : n / b < n := Nat.div_lt_self (by omega) (by omega)
        rw [toRadixAux_acc b k, toRadixAux_acc b m, ih m (n / b) (by omega) (by omega)]

theorem toRadix_small (b n : Nat) (h : n < b) : toRadix b n = [digitChar n] := by
  simp [toRadix, toRadixAux, h]

theorem toRadix_step (b : Nat) (hb : 2 ≤ b) (n : Nat) (h : b ≤ n) :
    toRadix b n = toRadix b (n / b) ++ [digitChar (n % b)] := by
  have hlt : n / b < n := Nat.div_lt_self (by omega) (by omega)
  unfold toRadix
  rw [toRadixAux]
  rw [if_neg (by omega), toRadixAux_acc]
  rw [toRadixAux_fuel b hb n (n / b + 1) (n / b) hlt (by omega)]

/-! ## Lemmas: the tokeniser -/

theorem hexValue_digitChar (d : Nat) (h : d < 16) : hexValue (digitChar d) = some d := by
  interval_cases d <;> rfl

theorem lexRun_digits (n : Nat) (toks : List Token) (rest : JSString) :
    lexRun (.start, toks) (toRadix 10 n ++ rest) = lexRun (numMode n, toks) rest := by
  induction n using Nat.strong_induction_on generalizing rest with
  | _ n ih =>
    by_cases h : n < 10
    · rw [toRadix_small 10 n h]
      simp only [List.singleton_append, lexRun, lexStep]
      unfold startStep numMode digitChar isDigit
      interval_cases n <;> simp
    · have hpos : 0 < n / 10 := Nat.div_pos (by omega) (by omega)
      rw [toRadix_step 10 (by omega) n (by omega), List.append_assoc,
        ih (n / 10) (Nat.div_lt_self (by omega) (by omega))]
      have hd : n % 10 < 10 := Nat.mod_lt _ (by omega)
      have e1 : numMode (n / 10) = .int false (n / 10) := by
        unfold numMode
        rw [if_neg (by omega)]
      have e2 : numMode n = .int false n := by
        unfold numMode
        rw [if_neg (by omega)]
      rw [e1, e2]
      simp only [List.singleton_append, lexRun, lexStep]
      have hdig : isDigit (digitChar (n % 10)) = true := by
        unfold isDigit digitChar
        simp [hd]
        omega
      have hval : n / 10 * 10 + (digitChar (n % 10) - 48) = n := by
        unfold digitChar
        rw [if_pos hd]
        omega
      simp [hdig, hval]

theorem lexRun_quoteUnit (c : Nat) (racc : JSString) (toks : List Token) (rest : JSString) :
    lexRun (.inStr racc, toks) (quoteUnit c ++ rest) = lexRun (.inStr (c :: racc), toks) rest := by
  have hex : ∀ c : Nat, c < 65536 →
      lexRun (.inStr racc, toks) (unicodeEscape c ++ rest)
        = lexRun (.inStr (c :: racc), toks) rest := by
    intro c hc
    have h3 : c / 4096 % 16 < 16 := Nat.mod_lt _ (by decide)
    have h2 : c / 256 % 16 < 16 := Nat.mod_lt _ (by decide)
    have h1 : c / 16 % 16 < 16 := Nat.mod_lt _ (by decide)
    have h0 : c % 16 < 16 := Nat.mod_lt _ (by decide)
    have hv : ((c / 4096 % 16 * 16 + c / 256 % 16) * 16 + c / 16 % 16) * 16 + c % 16 = c := by
      omega
    simp [unicodeEscape, lexRun, lexStep, hexValue_digitChar, h3, h2, h1, h0, hv]
  unfold quoteUnit
  split_ifs with h8 h9 h10 h12 h13 h34 h92 hlt hsur
  · subst h8; rfl
  · subst h9; rfl
  · subst h10; rfl
  · subst h12; rfl
  · subst h13; rfl
  · subst h34; rfl
  · subst h92; rfl
  · exact hex c (by omega)
  · apply hex c
    simp [isHighSurrogate, isLowSurrogate] at hsur
    omega
  · simp [lexRun, lexStep, h34, h92, hlt]

theorem lexRun_quoteBody (s : JSString) (racc : JSString) (toks : List Token) (tl : JSString) :
    lexRun (.inStr racc, toks) (quoteBody s ++ 34 :: tl)
      = lexRun (.start, .str (racc.reverse ++ s) :: toks) tl := by
  induction s using quoteBody.induct generalizing racc with
  | case1 => simp [quoteBody, lexRun, lexStep]
  | case2 c =>
    simp only [quoteBody]
    rw [lexRun_quoteUnit]
    simp [lexRun, lexStep]
  | case3 c d rest hpair ih =>
    simp only [quoteBody, hpair, if_true, List.cons_append]
    simp only [isHighSurrogate, isLowSurrogate, Bool.and_eq_true, decide_eq_true_eq] at hpair
    have hc1 : c ≠ 34 := by omega
    have hc2 : c ≠ 92 := by omega
    have hc3 : ¬ c < 32 := by omega
    have hd1 : d ≠ 34 := by omega
    have hd2 : d ≠ 92 := by omega
    have hd3 : ¬ d < 32 := by omega
    simp only [lexRun, lexStep, hc1, hc2, hc3, hd1, hd2, hd3, if_false]
    rw [ih]
    simp
  | case4 c d rest hpair ih =>
    have e : quoteBody (c :: d :: rest) = quoteUnit c ++ quoteBody (d :: rest) := by
      rw [quoteBody]
      simp [hpair]
    rw [e, List.append_assoc, lexRun_quoteUnit, ih]
    simp

theorem lexRun_quote (s : JSString) (toks : List Token) (tl : JSString) :
    lexRun (.start, toks) (quote s ++ tl) = lexRun (.start, .str s :: toks) tl := by
  unfold quote
  simp only [List.cons_append, List.append_assoc, List.singleton_append]
  rw [lexRun]
  simp only [lexStep, startStep]
  simp only [show ¬ ((34 : Nat) = 32 ∨ (34 : Nat) = 9 ∨ (34 : Nat) = 10 ∨ (34 : Nat) = 13) by decide,
    if_false, show (34 : Nat) ≠ 123 by decide, show (34 : Nat) ≠ 125 by decide,
    show (34 : Nat) ≠ 91 by decide, show (34 : Nat) ≠ 93 by decide,
    show (34 : Nat) ≠ 58 by decide, show (34 : Nat) ≠ 44 by decide, if_true]
  rw [lexRun_quoteBody]
  simp

theorem lexRun_nat (n : Nat) (hn : n ≤ maxSafe) (d : Nat) (hd : isDelimiter d)
    (toks : List Token) (tl : JSString) :
    lexRun (.start, toks) (intToString (n : Int) ++ d :: tl)
      = lexRun (.start, .num (n : Int) :: toks) (d :: tl) := by
  have e : intToString (n : Int) = toRadix 10 n := by
    unfold intToString
    rw [if_neg (by omega)]
    simp
  rw [e, lexRun_digits]
  have hdig : isDigit d = false := by
    unfold isDigit
    rcases hd with h | h | h <;> subst h <;> rfl
  have hdot : ¬ (d = 46 ∨ d = 101 ∨ d = 69) := by
    rcases hd with h | h | h <;> subst h <;> decide
  unfold numMode
  split
  · next h0 =>
    subst h0
    simp [lexRun, lexStep, hdig, hdot, emitNum]
  · simp [lexRun, lexStep, hdig, hdot, emitNum, hn]

theorem lexRun_lbrace (toks : List Token) (rest : JSString) :
    lexRun (.start, toks) (123 :: rest) = lexRun (.start, .lbrace :: toks) rest := rfl

theorem lexRun_rbrace (toks : List Token) (rest : JSString) :
    lexRun (.start, toks) (125 :: rest) = lexRun (.start, .rbrace :: toks) rest := rfl

theorem lexRun_lbracket (toks : List Token) (rest : JSString) :
    lexRun (.start, toks) (91 :: rest) = lexRun (.start, .lbracket :: toks) rest := rfl

theorem lexRun_rbracket (toks : List Token) (rest : JSString) :
    lexRun (.start, toks) (93 :: rest) = lexRun (.start, .rbracket :: toks) rest := rfl

theorem lexRun_colon (toks : List Token) (rest : JSString) :
    lexRun (.start, toks) (58 :: rest) = lexRun (.start, .colon :: toks) rest := rfl

theorem lexRun_comma (toks : List Token) (rest : JSString) :
    lexRun (.start, toks) (44 :: rest) = lexRun (.start, .comma :: toks) rest := rfl

theorem lexRun_record (r : HistoryRecord) (hr : r.Safe) (toks : List Token) (tl : JSString) :
    lexRun (.start, toks) (stringify r.toJS ++ tl)
      = lexRun (.start, (recordTokens r).reverse ++ toks) tl := by
  obtain ⟨hid, hclicks⟩ := hr
  simp only [HistoryRecord.toJS, stringify, stringifyMembers, List.cons_append, List.append_assoc,
    List.nil_append]
  rw [lexRun_lbrace, lexRun_quote, lexRun_colon, lexRun_nat r.id hid 44 (Or.inl rfl),
    lexRun_comma, lexRun_quote, lexRun_colon, lexRun_quote,
    lexRun_comma, lexRun_quote, lexRun_colon, lexRun_quote,
    lexRun_comma, lexRun_quote, lexRun_colon, lexRun_quote,
    lexRun_comma, lexRun_quote, lexRun_colon,
    lexRun_nat r.clicks hclicks 125 (Or.inr (Or.inr rfl)), lexRun_rbrace]
  simp [recordTokens]

theorem lexRun_items (rest : List HistoryRecord) (hsafe : ∀ r ∈ rest, r.Safe) (toks : List Token) :
    lexRun (.start, toks) (stringifyItems (rest.map HistoryRecord.toJS))
      = .ok (.start, (itemsTokens rest).reverse ++ toks) := by
  induction rest generalizing toks with
  | nil => rfl
  | cons r rest ih =>
    simp only [List.map_cons, stringifyItems]
    rw [lexRun_comma, lexRun_record r (hsafe r (List.mem_cons_self _ _)),
      ih (fun x hx => hsafe x (List.mem_cons_of_mem _ hx))]
    simp [itemsTokens]

theorem tokenize_history (h : List HistoryRecord) (hsafe : ∀ r ∈ h, r.Safe) :
    tokenize (stringify (historyToJS h)) = .ok (historyTokens h) := by
  cases h with
  | nil => rfl
  | cons r rest =>
    have e : stringify (historyToJS (r :: rest))
        = 91 :: (stringify r.toJS ++ stringifyItems (rest.map HistoryRecord.toJS)) := rfl
    unfold tokenize
    rw [e, lexRun_lbracket, lexRun_record r (hsafe r (List.mem_cons_self _ _)),
      lexRun_items rest (fun x hx => hsafe x (List.mem_cons_of_mem _ hx))]
    simp [lexFinish, historyTokens]

/-! ## Lemmas: the parser -/

theorem parseRun_record (r : HistoryRecord) (stack : List Frame) (tl : List Token) :
    parseRun (.value stack) (recordTokens r ++ tl) = parseRun (deliver r.toJS stack) tl := rfl

theorem parseRun_firstRecord (r : HistoryRecord) (stack : List Frame) (tl : List Token) :
    parseRun (.arrStart stack) (recordTokens r ++ tl)
      = parseRun (.afterItem stack [r.toJS]) tl := rfl

theorem parseRun_items (rest : List HistoryRecord) (stack : List Frame) (acc : List JSValue)
    (tl : List Token) :
    parseRun (.afterItem stack acc) (itemsTokens rest ++ tl)
      = parseRun (deliver (.arr (acc ++ rest.map HistoryRecord.toJS)) stack) tl := by
  induction rest generalizing acc with
  | nil => simp [itemsTokens, parseRun, parseStep]
  | cons r rest ih =>
    simp only [itemsTokens, List.cons_append, List.append_assoc]
    rw [parseRun]
    simp only [parseStep]
    rw [parseRun_record,
      show deliver r.toJS (Frame.arr acc :: stack) = ParseState.afterItem stack (acc ++ [r.toJS])
        from rfl, ih]
    simp

theorem parseRun_history (h : List HistoryRecord) :
    parseRun (.value []) (historyTokens h) = .ok (historyToJS h) := by
  cases h with
  | nil => rfl
  | cons r rest =>
    simp only [historyTokens]
    rw [parseRun]
    simp only [parseStep, valueStep]
    have := parseRun_items rest [] [r.toJS] []
    simp only [List.append_nil] at this
    rw [parseRun_firstRecord, this]
    simp [deliver, parseRun, historyToJS]

theorem parse_stringify_history (h : List HistoryRecord) (hsafe : ∀ r ∈ h, r.Safe) :
    JSON.parse (stringify (historyToJS h)) = .ok (historyToJS h) := by
  unfold JSON.parse
  rw [tokenize_history h hsafe]
  exact parseRun_history h

/-! ## Lemmas: the mapping store -/

theorem mappingToJS_eq (m : List (JSString × JSString)) :
    mappingToJS m = .obj (m.map mappingMember) := rfl

theorem lexRun_members (rest : List (JSString × JSString)) (toks : List Token) :
    lexRun (.start, toks) (stringifyMembers (rest.map mappingMember))
      = .ok (.start, (membersTokens rest).reverse ++ toks) := by
  induction rest generalizing toks with
  | nil => rfl
  | cons kv rest ih =>
    have e : stringifyMembers ((kv :: rest).map mappingMember)
        = 44 :: (quote kv.1 ++ 58 :: (quote kv.2 ++ stringifyMembers (rest.map mappingMember))) :=
      rfl
    rw [e, lexRun_comma, lexRun_quote, lexRun_colon, lexRun_quote, ih]
    simp [membersTokens]

theorem tokenize_mapping (m : List (JSString × JSString)) :
    tokenize (stringify (mappingToJS m)) = .ok (mappingTokens m) := by
  cases m with
  | nil => rfl
  | cons kv rest =>
    have e : stringify (mappingToJS (kv :: rest))
        = 123 :: (quote kv.1 ++ 58 :: (quote kv.2 ++ stringifyMembers (rest.map mappingMember))) :=
      rfl
    unfold tokenize
    rw [e, lexRun_lbrace, lexRun_quote, lexRun_colon, lexRun_quote, lexRun_members]
    simp [lexFinish, mappingTokens]

theorem setProp_of_not_mem (acc : List (JSString × JSValue)) (key : JSString) (v : JSValue)
    (h : key ∉ acc.map Prod.fst) : setProp acc key v = acc ++ [(key, v)] := by
  induction acc with
  | nil => rfl
  | cons p rest ih =>
    obtain ⟨k, w⟩ := p
    simp only [List.map_cons, List.mem_cons, not_or] at h
    simp only [setProp]
    rw [if_neg (fun e => h.1 e.symm), ih h.2]
    rfl

theorem parseRun_members (rest : List (JSString × JSString)) (stack : List Frame)
    (acc : List (JSString × JSValue)) (tl : List Token)
    (hnd : (rest.map Prod.fst).Nodup)
    (hdis : ∀ k ∈ rest.map Prod.fst, k ∉ acc.map Prod.fst) :
    parseRun (.afterMember stack acc) (membersTokens rest ++ tl)
      = parseRun (deliver (.obj (acc ++ rest.map mappingMember)) stack) tl := by
  induction rest generalizing acc with
  | nil => simp [membersTokens, parseRun, parseStep]
  | cons kv rest ih =>
    simp only [List.map_cons, List.nodup_cons] at hnd
    have hk : kv.1 ∉ acc.map Prod.fst := hdis kv.1 (by simp)
    simp only [membersTokens, List.cons_append]
    rw [parseRun]
    simp only [parseStep]
    rw [parseRun]
    simp only [parseStep]
    rw [parseRun]
    simp only [parseStep]
    rw [parseRun]
    simp only [parseStep, valueStep]
    rw [show deliver (JSValue.str kv.2) (Frame.obj acc kv.1 :: stack)
        = ParseState.afterMember stack (setProp acc kv.1 (JSValue.str kv.2)) from rfl,
      setProp_of_not_mem acc kv.1 _ hk, ih _ hnd.2]
    · simp [mappingMember]
    · intro k hkr
      simp only [List.map_append, List.map_cons, List.map_nil, List.mem_append,
        List.mem_singleton, not_or]
      refine ⟨hdis k (by simp [hkr]), ?_⟩
      intro e
      subst e
      exact hnd.1 hkr

theorem parseRun_mapping (m : List (JSString × JSString)) (hnd : (m.map Prod.fst).Nodup) :
    parseRun (.value []) (mappingTokens m) = .ok (mappingToJS m) := by
  cases m with
  | nil => rfl
  | cons kv rest =>
    simp only [List.map_cons, List.nodup_cons] at hnd
    simp only [mappingTokens]
    rw [parseRun]
    simp only [parseStep, valueStep]
    rw [parseRun]
    simp only [parseStep]
    rw [parseRun]
    simp only [parseStep]
    rw [parseRun]
    simp only [parseStep, valueStep]
    have := parseRun_members rest [] [mappingMember kv] [] hnd.2 (by
      intro k hk
      simp only [List.map_cons, List.map_nil, List.mem_singleton, mappingMember]
      intro e
      subst e
      exact hnd.1 hk)
    simp only [List.append_nil] at this
    rw [show deliver (JSValue.str kv.2) [Frame.obj [] kv.1]
        = ParseState.afterMember [] [mappingMember kv] from rfl, this]
    simp [deliver, parseRun, mappingToJS_eq]

theorem parse_stringify_mapping (m : List (JSString × JSString))
    (hnd : (m.map Prod.fst).Nodup) :
    JSON.parse (stringify (mappingToJS m)) = .ok (mappingToJS m) := by
  unfold JSON.parse
  rw [tokenize_mapping m]
  exact parseRun_mapping m hnd

theorem setProp_mapping (m : List (JSString × JSString)) (key v : JSString) :
    setProp (m.map mappingMember) key (.str v) = (setMapping m key v).map mappingMember := by
  induction m with
  | nil => rfl
  | cons p rest ih =>
    obtain ⟨k, w⟩ := p
    simp only [List.map_cons, mappingMember, setProp, setMapping]
    split
    · simp [mappingMember]
    · simp only [List.map_cons, mappingMember, List.cons.injEq, true_and]
      exact ih

theorem setMapping_keys (m : List (JSString × JSString)) (key v : JSString) :
    (setMapping m key v).map Prod.fst
      = if key ∈ m.map Prod.fst then m.map Prod.fst else m.map Prod.fst ++ [key] := by
  induction m with
  | nil => simp [setMapping]
  | cons p rest ih =>
    obtain ⟨k, w⟩ := p
    simp only [setMapping]
    by_cases hk : k = key
    · simp [hk]
    · have hk2 : ¬ key = k := fun e => hk e.symm
      rw [if_neg hk]
      simp only [List.map_cons, ih, List.mem_cons, hk2, false_or]
      split <;> simp

theorem setMapping_nodup (m : List (JSString × JSString)) (key v : JSString)
    (hnd : (m.map Prod.fst).Nodup) : ((setMapping m key v).map Prod.fst).Nodup := by
  rw [setMapping_keys]
  split
  · exact hnd
  · next h =>
    rw [List.nodup_append]
    refine ⟨hnd, by simp, ?_⟩
    intro a ha hb
    simp only [List.mem_singleton] at hb
    subst hb
    exact h ha

theorem lookupMapping_set_same (m : List (JSString × JSString)) (key v : JSString) :
    lookupMapping (setMapping m key v) key = some v := by
  induction m with
  | nil => simp [setMapping, lookupMapping]
  | cons p rest ih =>
    obtain ⟨k, w⟩ := p
    simp only [setMapping]
    by_cases hk : k = key
    · simp [hk, lookupMapping]
    · simp [hk, lookupMapping, ih]

theorem lookupMapping_set_other (m : List (JSString × JSString)) (key v k : JSString)
    (h : k ≠ key) : lookupMapping (setMapping m key v) k = lookupMapping m k := by
  induction m with
  | nil =>
    simp only [setMapping, lookupMapping]
    rw [if_neg (fun e => h e.symm)]
  | cons p rest ih =>
    obtain ⟨k1, w⟩ := p
    simp only [setMapping]
    by_cases hk : k1 = key
    · subst hk
      simp only [if_true, lookupMapping]
      rw [if_neg (fun e => h e.symm), if_neg (fun e => h e.symm)]
    · rw [if_neg hk]
      simp only [lookupMapping, ih]

theorem lookup_mapping (m : List (JSString × JSString)) (key : JSString) :
    lookup (m.map mappingMember) key = (lookupMapping m key).map JSValue.str := by
  induction m with
  | nil => rfl
  | cons p rest ih =>
    obtain ⟨k, w⟩ := p
    simp only [List.map_cons, mappingMember, lookup, lookupMapping]
    split
    · rfl
    · exact ih

/-! ## Lemmas: what `JSON.parse` returns is canonical -/

theorem safe_cons (tok : Token) (toks : List Token) (htok : tok.Safe)
    (hs : ∀ t ∈ toks, t.Safe) : ∀ t ∈ tok :: toks, t.Safe := by
  intro t ht
  rcases List.mem_cons.mp ht with e | e
  · subst e
    exact htok
  · exact hs t e

theorem startStep_safe (toks : List Token) (c : Nat) (st : LexState)
    (h : startStep toks c = .ok st) (hs : ∀ t ∈ toks, t.Safe) : st.Safe := by
  unfold startStep at h
  by_cases h0 : c = 32 ∨ c = 9 ∨ c = 10 ∨ c = 13
  · rw [if_pos h0] at h
    cases h
    exact ⟨True.intro, hs⟩
  rw [if_neg h0] at h
  by_cases h1 : c = 123
  · rw [if_pos h1] at h
    cases h
    exact ⟨True.intro, safe_cons _ _ True.intro hs⟩
  rw [if_neg h1] at h
  by_cases h2 : c = 125
  · rw [if_pos h2] at h
    cases h
    exact ⟨True.intro, safe_cons _ _ True.intro hs⟩
  rw [if_neg h2] at h
  by_cases h3 : c = 91
  · rw [if_pos h3] at h
    cases h
    exact ⟨True.intro, safe_cons _ _ True.intro hs⟩
  rw [if_neg h3] at h
  by_cases h4 : c = 93
  · rw [if_pos h4] at h
    cases h
    exact ⟨True.intro, safe_cons _ _ True.intro hs⟩
  rw [if_neg h4] at h
  by_cases h5 : c = 58
  · rw [if_pos h5] at h
    cases h
    exact ⟨True.intro, safe_cons _ _ True.intro hs⟩
  rw [if_neg h5] at h
  by_cases h6 : c = 44
  · rw [if_pos h6] at h
    cases h
    exact ⟨True.intro, safe_cons _ _ True.intro hs⟩
  rw [if_neg h6] at h
  by_cases h7 : c = 34
  · rw [if_pos h7] at h
    cases h
    exact ⟨True.intro, hs⟩
  rw [if_neg h7] at h
  by_cases h8 : c = 45
  · rw [if_pos h8] at h
    cases h
    exact ⟨True.intro, hs⟩
  rw [if_neg h8] at h
  by_cases h9 : c = 48
  · rw [if_pos h9] at h
    cases h
    exact ⟨True.intro, hs⟩
  rw [if_neg h9] at h
  by_cases h10 : isDigit c = true
  · rw [if_pos h10] at h
    cases h
    exact ⟨True.intro, hs⟩
  rw [if_neg h10] at h
  by_cases h11 : c = 116
  · rw [if_pos h11] at h
    cases h
    exact ⟨True.intro, hs⟩
  rw [if_neg h11] at h
  by_cases h12 : c = 102
  · rw [if_pos h12] at h
    cases h
    exact ⟨True.intro, hs⟩
  rw [if_neg h12] at h
  by_cases h13 : c = 110
  · rw [if_pos h13] at h
    cases h
    exact ⟨True.intro, hs⟩
  rw [if_neg h13] at h
  cases h

theorem emitNum_safe (neg : Bool) (val : Nat) (toks toks1 : List Token)
    (h : emitNum neg val toks = .ok toks1) (hs : ∀ t ∈ toks, t.Safe) : ∀ t ∈ toks1, t.Safe := by
  unfold emitNum at h
  by_cases hv : val ≤ maxSafe
  · rw [if_pos hv] at h
    cases h
    apply safe_cons _ _ _ hs
    unfold Token.Safe safeInt
    cases neg <;> simp <;> omega
  · rw [if_neg hv] at h
    cases h

theorem lexStep_safe (st : LexState) (c : Nat) (st1 : LexState)
    (h : lexStep st c = .ok st1) (hst : st.Safe) : st1.Safe := by
  obtain ⟨mode, toks⟩ := st
  obtain ⟨hm, hs⟩ := hst
  simp only at hs
  cases mode with
  | start => exact startStep_safe toks c st1 h hs
  | inStr racc =>
    simp only [lexStep] at h
    split_ifs at h <;> cases h <;>
      first | exact ⟨True.intro, hs⟩ | exact ⟨True.intro, safe_cons _ _ True.intro hs⟩
  | esc racc =>
    simp only [lexStep] at h
    split_ifs at h
    · cases h
      exact ⟨True.intro, hs⟩
    · split at h <;> cases h
      exact ⟨True.intro, hs⟩
  | hex racc k val =>
    simp only [lexStep] at h
    split at h
    · split_ifs at h <;> cases h <;> exact ⟨True.intro, hs⟩
    · cases h
  | minus =>
    simp only [lexStep] at h
    split_ifs at h <;> cases h <;> exact ⟨True.intro, hs⟩
  | zero neg =>
    simp only [lexStep] at h
    split_ifs at h
    split at h
    · next toks1 he => exact startStep_safe toks1 c st1 h (emitNum_safe _ _ _ _ he hs)
    · cases h
  | int neg val =>
    simp only [lexStep] at h
    split_ifs at h
    · cases h
      exact ⟨True.intro, hs⟩
    · split at h
      · next toks1 he => exact startStep_safe toks1 c st1 h (emitNum_safe _ _ _ _ he hs)
      · cases h
  | word rest tok =>
    have htok : tok.Safe := hm
    simp only [lexStep] at h
    split at h
    · cases h
    · split_ifs at h
      cases h
      exact ⟨True.intro, safe_cons _ _ htok hs⟩
    · split_ifs at h
      cases h
      exact ⟨htok, hs⟩

theorem lexRun_safe (st : LexState) (text : JSString) (st1 : LexState)
    (h : lexRun st text = .ok st1) (hst : st.Safe) : st1.Safe := by
  induction text generalizing st with
  | nil =>
    simp only [lexRun, Except.ok.injEq] at h
    subst h
    exact hst
  | cons c rest ih =>
    simp only [lexRun] at h
    split at h
    · next st2 he => exact ih st2 h (lexStep_safe st c st2 he hst)
    · cases h

theorem lexFinish_safe (st : LexState) (toks : List Token)
    (h : lexFinish st = .ok toks) (hst : st.Safe) : ∀ t ∈ toks, t.Safe := by
  obtain ⟨mode, toks0⟩ := st
  obtain ⟨_, hs⟩ := hst
  simp only at hs
  have fin : ∀ (neg : Bool) (val : Nat),
      (emitNum neg val toks0).map List.reverse = .ok toks → ∀ t ∈ toks, t.Safe := by
    intro neg val he
    cases hen : emitNum neg val toks0 with
    | error e =>
      rw [hen] at he
      cases he
    | ok toks1 =>
      rw [hen] at he
      cases he
      intro t ht
      exact emitNum_safe _ _ _ _ hen hs t (List.mem_reverse.mp ht)
  cases mode with
  | start =>
    cases h
    intro t ht
    exact hs t (List.mem_reverse.mp ht)
  | zero neg => exact fin neg 0 h
  | int neg val => exact fin neg val h
  | inStr racc => cases h
  | esc racc => cases h
  | hex racc k val => cases h
  | minus => cases h
  | word rest tok => cases h

theorem tokenize_safe (text : JSString) (toks : List Token) (h : tokenize text = .ok toks) :
    ∀ t ∈ toks, t.Safe := by
  unfold tokenize at h
  split at h
  · next st he =>
    exact lexFinish_safe st toks h
      (lexRun_safe _ text st he ⟨True.intro, fun t ht => absurd ht (List.not_mem_nil _)⟩)
  · cases h

theorem canonicalItems_append (items : List JSValue) (v : JSValue)
    (hi : canonicalItems items) (hv : v.Canonical) : canonicalItems (items ++ [v]) := by
  induction items with
  | nil => exact ⟨hv, True.intro⟩
  | cons w rest ih =>
    simp only [List.cons_append, canonicalItems] at hi ⊢
    exact ⟨hi.1, ih hi.2⟩

theorem setProp_keys (members : List (JSString × JSValue)) (key : JSString) (v : JSValue) :
    (setProp members key v).map Prod.fst
      = if key ∈ members.map Prod.fst then members.map Prod.fst
        else members.map Prod.fst ++ [key] := by
  induction members with
  | nil => simp [setProp]
  | cons p rest ih =>
    obtain ⟨k, w⟩ := p
    simp only [setProp]
    by_cases hk : k = key
    · simp [hk]
    · have hk2 : ¬ key = k := fun e => hk e.symm
      rw [if_neg hk]
      simp only [List.map_cons, ih, List.mem_cons, hk2, false_or]
      split <;> simp

theorem setProp_nodup (members : List (JSString × JSValue)) (key : JSString) (v : JSValue)
    (hnd : (members.map Prod.fst).Nodup) : ((setProp members key v).map Prod.fst).Nodup := by
  rw [setProp_keys]
  split
  · exact hnd
  · next h =>
    rw [List.nodup_append]
    refine ⟨hnd, by simp, ?_⟩
    intro a ha hb
    simp only [List.mem_singleton] at hb
    subst hb
    exact h ha

theorem setProp_canonical (members : List (JSString × JSValue)) (key : JSString) (v : JSValue)
    (hm : canonicalMembers members) (hv : v.Canonical) :
    canonicalMembers (setProp members key v) := by
  induction members with
  | nil => exact ⟨hv, True.intro⟩
  | cons p rest ih =>
    obtain ⟨k, w⟩ := p
    simp only [canonicalMembers] at hm
    simp only [setProp]
    split
    · exact ⟨hv, hm.2⟩
    · exact ⟨hm.1, ih hm.2⟩

theorem deliver_canonical (v : JSValue) (stack : List Frame) (hv : v.Canonical)
    (hs : ∀ f ∈ stack, f.Canonical) : (deliver v stack).Canonical := by
  cases stack with
  | nil => exact hv
  | cons f rest =>
    have hf := hs f (List.mem_cons_self _ _)
    have hrest : ∀ g ∈ rest, g.Canonical := fun g hg => hs g (List.mem_cons_of_mem _ hg)
    cases f with
    | arr items => exact ⟨hrest, canonicalItems_append items v hf hv⟩
    | obj members key =>
      exact ⟨hrest, setProp_nodup members key v hf.1, setProp_canonical members key v hf.2 hv⟩

theorem valueStep_canonical (stack : List Frame) (tok : Token) (st : ParseState)
    (h : valueStep stack tok = .ok st) (hs : ∀ f ∈ stack, f.Canonical) (ht : tok.Safe) :
    st.Canonical := by
  cases tok <;> simp only [valueStep, Except.ok.injEq, reduceCtorEq] at h <;> subst h
  · exact hs
  · exact hs
  · exact deliver_canonical _ _ True.intro hs
  · exact deliver_canonical _ _ ht hs
  · exact deliver_canonical _ _ True.intro hs
  · exact deliver_canonical _ _ True.intro hs
  · exact deliver_canonical _ _ True.intro hs

theorem cons_canonical (f : Frame) (stack : List Frame) (hf : f.Canonical)
    (hs : ∀ g ∈ stack, g.Canonical) : ∀ g ∈ f :: stack, g.Canonical := by
  intro g hg
  rcases List.mem_cons.mp hg with e | e
  · subst e
    exact hf
  · exact hs g e

theorem parseStep_canonical (st : ParseState) (tok : Token) (st1 : ParseState)
    (h : parseStep st tok = .ok st1) (hst : st.Canonical) (ht : tok.Safe) : st1.Canonical := by
  cases st with
  | value stack => exact valueStep_canonical stack tok st1 h hst ht
  | arrStart stack =>
    have hs : ∀ g ∈ Frame.arr [] :: stack, g.Canonical := cons_canonical _ _ True.intro hst
    cases tok <;> simp only [parseStep] at h
    case rbracket =>
      cases h
      exact deliver_canonical _ _ True.intro hst
    all_goals exact valueStep_canonical _ _ st1 h hs ht
  | afterItem stack items =>
    cases tok <;> simp only [parseStep, reduceCtorEq] at h
    case comma =>
      cases h
      exact cons_canonical _ _ hst.2 hst.1
    case rbracket =>
      cases h
      exact deliver_canonical _ _ hst.2 hst.1
  | objStart stack =>
    cases tok <;> simp only [parseStep, reduceCtorEq] at h
    case rbrace =>
      cases h
      exact deliver_canonical _ _ ⟨List.nodup_nil, True.intro⟩ hst
    case str k =>
      cases h
      exact ⟨hst, List.nodup_nil, True.intro⟩
  | key stack members =>
    cases tok <;> simp only [parseStep, reduceCtorEq] at h
    case str k =>
      cases h
      exact hst
  | colon stack members k =>
    cases tok <;> simp only [parseStep, reduceCtorEq] at h
    case colon =>
      cases h
      exact cons_canonical _ _ hst.2 hst.1
  | afterMember stack members =>
    cases tok <;> simp only [parseStep, reduceCtorEq] at h
    case comma =>
      cases h
      exact hst
    case rbrace =>
      cases h
      exact deliver_canonical _ _ hst.2 hst.1
  | done v =>
    cases tok <;> simp only [parseStep, reduceCtorEq] at h

theorem parseRun_canonical (st : ParseState) (toks : List Token) (v : JSValue)
    (h : parseRun st toks = .ok v) (hst : st.Canonical) (ht : ∀ t ∈ toks, t.Safe) :
    v.Canonical := by
  induction toks generalizing st with
  | nil =>
    cases st <;> simp only [parseRun, reduceCtorEq, Except.ok.injEq] at h
    subst h
    exact hst
  | cons t rest ih =>
    simp only [parseRun] at h
    split at h
    · next st2 he =>
      exact ih st2 h (parseStep_canonical st t st2 he hst (ht t (List.mem_cons_self _ _)))
        (fun x hx => ht x (List.mem_cons_of_mem _ hx))
    · cases h

theorem parse_canonical (text : JSString) (v : JSValue) (h : JSON.parse text = .ok v) :
    v.Canonical := by
  unfold JSON.parse at h
  split at h
  · next toks he =>
    exact parseRun_canonical _ toks v h (fun f hf => absurd hf (List.not_mem_nil _))
      (tokenize_safe text toks he)
  · cases h

theorem history_safe_of_canonical (h : List HistoryRecord) (hc : (historyToJS h).Canonical) :
    ∀ r ∈ h, r.Safe := by
  have hi : canonicalItems (h.map HistoryRecord.toJS) := hc
  clear hc
  induction h with
  | nil => exact fun r hr => absurd hr (List.not_mem_nil _)
  | cons x rest ih =>
    simp only [List.map_cons, canonicalItems] at hi
    intro r hr
    rcases List.mem_cons.mp hr with e | e
    · subst e
      have hm : canonicalMembers [(js "id", JSValue.num r.id), (js "longURL", .str r.longURL),
          (js "shortURL", .str r.shortURL), (js "date", .str r.date),
          (js "clicks", .num r.clicks)] := hi.1.2
      simp only [canonicalMembers, JSValue.Canonical, safeInt] at hm
      constructor
      · have := hm.1.2
        omega
      · have := hm.2.2.2.2.1.2
        omega
    · exact ih hi.2 r e

theorem mapping_nodup_of_canonical (m : List (JSString × JSString))
    (hc : (mappingToJS m).Canonical) : (m.map Prod.fst).Nodup := by
  have hk : ((m.map mappingMember).map Prod.fst).Nodup := hc.1
  have e : (m.map mappingMember).map Prod.fst = m.map Prod.fst := by
    simp [mappingMember]
  rw [e] at hk
  exact hk

theorem getHistory_safe (ls : Storage) (h : List HistoryRecord)
    (hwf : getHistory ls = .ok (historyToJS h)) : ∀ r ∈ h, r.Safe := by
  apply history_safe_of_canonical
  unfold getHistory at hwf
  split at hwf
  · rw [← Except.ok.inj hwf]
    exact True.intro
  · split_ifs at hwf
    · rw [← Except.ok.inj hwf]
      exact True.intro
    · exact parse_canonical _ _ hwf

theorem getMappings_nodup (ls : Storage) (m : List (JSString × JSString))
    (hwf : getMappings ls = .ok (mappingToJS m)) : (m.map Prod.fst).Nodup :=
  mapping_nodup_of_canonical m (parse_canonical _ _ hwf)

/-! ## Lemmas: the history store -/

theorem stringify_history_ne_nil (h : List HistoryRecord) : stringify (historyToJS h) ≠ [] := by
  cases h with
  | nil => simp [historyToJS, stringify]
  | cons r rest =>
    have e : stringify (historyToJS (r :: rest))
        = 91 :: (stringify r.toJS ++ stringifyItems (rest.map HistoryRecord.toJS)) := rfl
    rw [e]
    simp

theorem getHistory_stored (ls : Storage) (h : List HistoryRecord) (hsafe : ∀ r ∈ h, r.Safe) :
    getHistory { ls with urlHistory := some (stringify (historyToJS h)) }
      = .ok (historyToJS h) := by
  unfold getHistory
  simp only
  rw [if_neg (stringify_history_ne_nil h)]
  exact parse_stringify_history h hsafe

theorem idDiffers_record (id : Int) (r : HistoryRecord) :
    idDiffers id r.toJS = .ok (decide ((r.id : Int) ≠ id)) := rfl

theorem shortURLIs_record (url : JSString) (r : HistoryRecord) :
    shortURLIs url r.toJS = .ok (decide (r.shortURL = url)) := rfl

theorem filterItems_history (id : Int) (h : List HistoryRecord) :
    filterItems (idDiffers id) (h.map HistoryRecord.toJS)
      = .ok ((h.filter (fun r => decide ((r.id : Int) ≠ id))).map HistoryRecord.toJS) := by
  induction h with
  | nil => rfl
  | cons r rest ih =>
    simp only [List.map_cons, filterItems, idDiffers_record, ih, List.filter_cons]
    split <;> simp_all

theorem clicksPlusOne_num (n : Int) (hc : -(maxSafe : Int) ≤ n ∧ n < (maxSafe : Int)) :
    clicksPlusOne (some (.num n)) = .ok (.num (n + 1)) := by
  simp only [clicksPlusOne]
  rw [if_pos hc]

theorem addClick_obj (members : List (JSString × JSValue)) (c : JSValue)
    (h : clicksPlusOne (lookup members (js "clicks")) = .ok c) :
    addClick (.obj members) = .ok (.obj (setProp members (js "clicks") c)) := by
  simp only [addClick, h]

theorem addClick_record (r : HistoryRecord) (hr : r.clicks < maxSafe) :
    addClick r.toJS = .ok ({ r with clicks := r.clicks + 1 } : HistoryRecord).toJS := by
  have hc : -(maxSafe : Int) ≤ (r.clicks : Int) ∧ (r.clicks : Int) < (maxSafe : Int) := by
    constructor <;> omega
  have e : lookup [(js "id", JSValue.num r.id), (js "longURL", .str r.longURL),
      (js "shortURL", .str r.shortURL), (js "date", .str r.date),
      (js "clicks", .num r.clicks)] (js "clicks") = some (.num r.clicks) := rfl
  have h1 : addClick r.toJS = .ok (.obj [(js "id", JSValue.num r.id),
      (js "longURL", .str r.longURL), (js "shortURL", .str r.shortURL), (js "date", .str r.date),
      (js "clicks", .num ((r.clicks : Int) + 1))]) :=
    addClick_obj _ _ (e ▸ clicksPlusOne_num _ hc)
  rw [h1]
  unfold HistoryRecord.toJS
  simp only
  push_cast
  rfl

theorem findItem_history (url : JSString) (h : List HistoryRecord) :
    findItem (shortURLIs url) (h.map HistoryRecord.toJS)
      = .ok (if h.all (fun r => decide (r.shortURL ≠ url)) then none
          else some (h.takeWhile (fun r => decide (r.shortURL ≠ url))).length) := by
  induction h with
  | nil => rfl
  | cons r rest ih =>
    simp only [List.map_cons, findItem, shortURLIs_record, ih]
    by_cases hr : r.shortURL = url
    · simp [hr]
    · simp only [hr, decide_False, List.all_cons, ne_eq, not_false_eq_true, decide_True,
        Bool.true_and, List.takeWhile_cons, List.length_cons]
      split <;> simp_all

theorem clickFirst_split (url : JSString) (pre : List HistoryRecord) (r : HistoryRecord)
    (post : List HistoryRecord) (hpre : ∀ x ∈ pre, x.shortURL ≠ url) (hr : r.shortURL = url) :
    clickFirst url (pre ++ r :: post) = pre ++ { r with clicks := r.clicks + 1 } :: post := by
  induction pre with
  | nil => simp [clickFirst, hr]
  | cons x rest ih =>
    rw [List.cons_append, clickFirst, if_neg (hpre x (List.mem_cons_self _ _)),
      ih (fun y hy => hpre y (List.mem_cons_of_mem _ hy))]
    rfl

theorem clickFirst_ids (url : JSString) (h : List HistoryRecord) :
    (clickFirst url h).map (fun r => r.id) = h.map (fun r => r.id) := by
  induction h with
  | nil => rfl
  | cons r rest ih =>
    simp only [clickFirst]
    split
    · rfl
    · simp [ih]

theorem clickFirst_safe (url : JSString) (h : List HistoryRecord) (hsafe : ∀ r ∈ h, r.Safe)
    (hclicks : ∀ r ∈ h, r.clicks < maxSafe) : ∀ r ∈ clickFirst url h, r.Safe := by
  induction h with
  | nil => simp [clickFirst]
  | cons x rest ih =>
    have hx := hsafe x (List.mem_cons_self _ _)
    have hxc := hclicks x (List.mem_cons_self _ _)
    have hrest := ih (fun y hy => hsafe y (List.mem_cons_of_mem _ hy))
      (fun y hy => hclicks y (List.mem_cons_of_mem _ hy))
    simp only [clickFirst]
    split
    · intro r hr
      rcases List.mem_cons.mp hr with e | e
      · subst e
        exact ⟨hx.1, hxc⟩
      · exact hsafe r (List.mem_cons_of_mem _ e)
    · intro r hr
      rcases List.mem_cons.mp hr with e | e
      · subst e
        exact hx
      · exact hrest r e

/-- The array after the assignment to the clicked item, for a history. -/
theorem clickedItems (url : JSString) (h : List HistoryRecord)
    (hclicks : ∀ r ∈ h, r.clicks < maxSafe) :
    match findItem (shortURLIs url) (h.map HistoryRecord.toJS) with
    | .error _ => False
    | .ok none => clickFirst url h = h ∧ ∀ r ∈ h, r.shortURL ≠ url
    | .ok (some i) =>
      ∃ item, (h.map HistoryRecord.toJS).get? i = some item ∧
        ∃ item1, addClick item = .ok item1 ∧
          (h.map HistoryRecord.toJS).set i item1 = (clickFirst url h).map HistoryRecord.toJS := by
  induction h with
  | nil => simp [findItem, clickFirst]
  | cons r rest ih =>
    have ih1 := ih (fun y hy => hclicks y (List.mem_cons_of_mem _ hy))
    simp only [List.map_cons, findItem, shortURLIs_record]
    by_cases hr : r.shortURL = url
    · simp only [hr, decide_True]
      refine ⟨r.toJS, rfl, _, addClick_record r (hclicks r (List.mem_cons_self _ _)), ?_⟩
      simp [clickFirst, hr]
    · simp only [hr, decide_False]
      cases hf : findItem (shortURLIs url) (rest.map HistoryRecord.toJS) with
      | error e => simp [hf] at ih1
      | ok o =>
        rw [hf] at ih1
        cases o with
        | none =>
          simp only at ih1 ⊢
          refine ⟨by simp [clickFirst, hr, ih1.1], ?_⟩
          intro x hx
          rcases List.mem_cons.mp hx with e | e
          · subst e
            exact hr
          · exact ih1.2 x e
        | some i =>
          simp only at ih1 ⊢
          obtain ⟨item, hget, item1, hadd, hset⟩ := ih1
          refine ⟨item, by simpa using hget, item1, hadd, ?_⟩
          simp [clickFirst, hr, hset]

theorem recordClick_history (ls : Storage) (h : List HistoryRecord) (url : JSString)
    (hwf : getHistory ls = .ok (historyToJS h)) (hsafe : ∀ r ∈ h, r.Safe)
    (hclicks : ∀ r ∈ h, r.clicks < maxSafe) :
    ∃ ls1, recordClick url ls = .ok ls1 ∧ getHistory ls1 = .ok (historyToJS (clickFirst url h)) ∧
      ((∀ r ∈ h, r.shortURL ≠ url) → ls1 = ls) := by
  have key := clickedItems url h hclicks
  unfold recordClick
  rw [hwf]
  simp only [historyToJS]
  cases hf : findItem (shortURLIs url) (h.map HistoryRecord.toJS) with
  | error e => simp [hf] at key
  | ok o =>
    rw [hf] at key
    cases o with
    | none =>
      simp only at key ⊢
      refine ⟨ls, rfl, ?_, fun _ => rfl⟩
      rw [key.1]
      exact hwf
    | some i =>
      simp only at key ⊢
      obtain ⟨item, hget, item1, hadd, hset⟩ := key
      rw [hget]
      simp only [hadd, hset]
      refine ⟨_, rfl, ?_, ?_⟩
      · exact getHistory_stored ls (clickFirst url h) (clickFirst_safe url h hsafe hclicks)
      · intro hall
        exfalso
        have hnone := findItem_history url h
        rw [hf] at hnone
        have : h.all (fun r => decide (r.shortURL ≠ url)) = true := by
          simpa using hall
        simp [this] at hnone
        obtain ⟨⟨x, hx, hxe⟩, _⟩ := hnone
        exact hall x hx hxe

theorem deleteHistoryItem_history (ls : Storage) (h : List HistoryRecord) (id : Int)
    (hwf : getHistory ls = .ok (historyToJS h)) :
    deleteHistoryItem id ls
      = .ok ⟨some (stringify (historyToJS (h.filter (fun r => decide ((r.id : Int) ≠ id))))),
          ls.customMappings⟩ := by
  unfold deleteHistoryItem
  rw [hwf]
  simp only [historyToJS, filterItems_history]

theorem filter_safe (h : List HistoryRecord) (p : HistoryRecord → Bool)
    (hsafe : ∀ r ∈ h, r.Safe) : ∀ r ∈ h.filter p, r.Safe :=
  fun r hr => hsafe r (List.mem_of_mem_filter hr)

theorem saveToHistory_history (ls : Storage) (h : List HistoryRecord) (now : Nat)
    (date longURL shortURL : JSString) (hwf : getHistory ls = .ok (historyToJS h)) :
    saveToHistory now date ls longURL shortURL
      = .ok ⟨some (stringify (historyToJS (⟨now, longURL, shortURL, date, 0⟩ :: h))),
          ls.customMappings⟩ := by
  unfold saveToHistory
  rw [hwf]
  rfl

/-! ## The claims -/

/-- C1. When each of the three provider calls fails (it throws, or its response is empty
or does not start with `http`), `shortenWithAPI` returns exactly
`origin + "/s/" + generateHash(longURL)`, after calling the three providers in order; the
function is total, so no error is raised. -/
theorem shortenWithAPI_all_fail (tinyurl isgd vgd : ApiCall) (origin longURL : JSString)
    (h1 : fails tinyurl longURL) (h2 : fails isgd longURL) (h3 : fails vgd longURL) :
    shortenWithAPI [tinyurl, isgd, vgd] origin longURL
      = (origin ++ js "/s/" ++ generateHash longURL, [0, 1, 2]) := by
  have h : ∀ apiCall ∈ [tinyurl, isgd, vgd], fails apiCall longURL := by
    intro a ha
    simp only [List.mem_cons, List.mem_singleton, List.not_mem_nil, or_false] at ha
    rcases ha with e | e | e <;> subst e <;> assumption
  unfold shortenWithAPI
  rw [tryApis_all_fail _ longURL 0 [] h]
  rfl

theorem shortenWithAPI_all_fail_witness :
    fails (fun _ => Response.rejected) (js "https://example.com/page") ∧
    fails (fun _ => Response.text []) (js "https://example.com/page") ∧
    fails (fun _ => Response.text (js "Error: rate limit")) (js "https://example.com/page") ∧
    shortenWithAPI [fun _ => Response.rejected, fun _ => Response.text [],
        fun _ => Response.text (js "Error: rate limit")]
        (js "https://short.example") (js "https://example.com/page")
      = (js "https://short.example/s/m019o0", [0, 1, 2]) :=
  ⟨True.intro, rfl, rfl,
    shortenWithAPI_all_fail (fun _ => Response.rejected) (fun _ => Response.text [])
      (fun _ => Response.text (js "Error: rate limit")) (js "https://short.example")
      (js "https://example.com/page") True.intro rfl rfl⟩

/-- C2. When the providers before some provider of the chain all fail and that provider
returns a response accepted as a short URL, `shortenWithAPI` returns that response and the
providers it called are exactly the chain up to and including that one, whatever the later
providers would return. With no provider before it: a success of the first provider is
returned and the second and third provider are never called. -/
theorem shortenWithAPI_first_success (pre : List ApiCall) (p : ApiCall) (post : List ApiCall)
    (origin longURL result : JSString)
    (hpre : ∀ apiCall ∈ pre, fails apiCall longURL)
    (hp : p longURL = .text result) (hacc : accepted result = true) :
    shortenWithAPI (pre ++ p :: post) origin longURL = (result, List.range (pre.length + 1)) := by
  unfold shortenWithAPI
  rw [tryApis_first_success pre p post longURL result 0 [] hpre hp hacc]
  simp [List.range_eq_range']

theorem shortenWithAPI_first_success_witness :
    shortenWithAPI ([] ++ (fun _ => Response.text (js "https://tinyurl.com/abc")) ::
        [fun _ => Response.text (js "https://is.gd/xyz"), fun _ => Response.rejected])
        (js "https://short.example") (js "https://example.com/page")
      = (js "https://tinyurl.com/abc", List.range 1) :=
  shortenWithAPI_first_success [] (fun _ => Response.text (js "https://tinyurl.com/abc"))
    [fun _ => Response.text (js "https://is.gd/xyz"), fun _ => Response.rejected]
    (js "https://short.example") (js "https://example.com/page") (js "https://tinyurl.com/abc")
    (fun _ h => absurd h (List.not_mem_nil _)) rfl rfl

/-- C3. For every string, `generateHash` is the base-36 rendering of the absolute value of
the rolling hash `h0 = 0`, `h(i+1) = h(i) * 31 + charCode(i)` wrapped to a signed 32-bit
integer at every step: each loop iteration `((hash << 5) - hash) + char; hash & hash`
computes `hash * 31 + char` wrapped to 32 bits. -/
theorem generateHash_eq_specHash (str : JSString) :
    generateHash str = toRadix 36 (specHash str).natAbs ∧
      ∀ (hash : Int) (char : Nat), hashStep hash char = toInt32 (hash * 31 + (char : Int)) := by
  refine ⟨?_, hashStep_eq⟩
  unfold generateHash
  rw [hashLoop_eq_specHash]

/-- The famous input whose rolling hash is the minimum signed 32-bit value. -/
theorem generateHash_minInt :
    hashLoop (js "polygenelubricants") = -2147483648 ∧
      generateHash (js "polygenelubricants") = js "zik0zk" := by
  constructor <;> decide

/-- C10. For every input string, `generateHash` returns a non-empty string made only of
the characters `0`-`9` and `a`-`z`, hence without a minus sign, also when the rolling hash
is negative or is -2147483648; being a function of the string alone, it gives the same
token for the same input. -/
theorem generateHash_base36 (str : JSString) :
    generateHash str ≠ [] ∧ (∀ c ∈ generateHash str, isBase36Char c) ∧
      45 ∉ generateHash str := by
  have hchars : ∀ c ∈ generateHash str, isBase36Char c :=
    toRadixAux_chars _ _ [] (fun c hc => absurd hc (List.not_mem_nil _))
  refine ⟨toRadixAux_ne_nil 36 _ _ [], hchars, ?_⟩
  intro h
  have := hchars 45 h
  unfold isBase36Char at this
  omega

theorem sampleRecord_safe : ∀ r ∈ [sampleRecord], r.Safe := by
  intro r hr
  rw [List.mem_singleton] at hr
  subst hr
  exact ⟨by decide, by decide⟩

/-- C4, as stated, fails: on a `urlHistory` entry that is not valid JSON, `getHistory` raises
the `SyntaxError` of `JSON.parse` instead of returning the empty sequence. -/
theorem getHistory_corrupt_raises :
    getHistory ⟨some (js "\x7boops"), none⟩ = .error .syntaxError := rfl

/-- C4, amended. `getHistory` returns the empty sequence when the `urlHistory` entry is
missing or is the empty string; on any other entry it returns what `JSON.parse` returns,
so it raises when `JSON.parse` does; and on the text written for a history it returns that
history. -/
theorem getHistory_spec (cm : Option JSString) :
    getHistory ⟨none, cm⟩ = .ok (.arr []) ∧
    getHistory ⟨some [], cm⟩ = .ok (.arr []) ∧
    (∀ text : JSString, text ≠ [] → getHistory ⟨some text, cm⟩ = JSON.parse text) ∧
    (∀ h : List HistoryRecord, (∀ r ∈ h, r.Safe) →
      getHistory ⟨some (stringify (historyToJS h)), cm⟩ = .ok (historyToJS h)) := by
  refine ⟨rfl, rfl, ?_, ?_⟩
  · intro text htext
    unfold getHistory
    simp only
    rw [if_neg htext]
  · intro h hsafe
    exact getHistory_stored ⟨none, cm⟩ h hsafe

theorem getHistory_spec_witness :
    (js "[1, 2]" ≠ [] ∧ getHistory ⟨some (js "[1, 2]"), none⟩ = JSON.parse (js "[1, 2]")) ∧
    ((∀ r ∈ [sampleRecord], r.Safe) ∧
      getHistory ⟨some (stringify (historyToJS [sampleRecord])), none⟩
        = .ok (historyToJS [sampleRecord])) :=
  ⟨⟨by decide, (getHistory_spec none).2.2.1 (js "[1, 2]") (by decide)⟩,
    ⟨sampleRecord_safe, (getHistory_spec none).2.2.2 [sampleRecord] sampleRecord_safe⟩⟩

/-- C5. For a well-formed history store, one on which `getHistory` returns the records `h`,
`saveToHistory` followed by `getHistory` returns the new record (that `longURL`, that
`shortURL`, `clicks = 0`, the clock reading as `id`) followed by the records of `h` in their
previous order. The clock reading is at most 2^53, as every reading of `Date.now()` is. -/
theorem saveToHistory_then_getHistory (ls : Storage) (h : List HistoryRecord) (now : Nat)
    (date longURL shortURL : JSString)
    (hwf : getHistory ls = .ok (historyToJS h)) (hnow : now ≤ maxSafe) :
    ∃ ls1, saveToHistory now date ls longURL shortURL = .ok ls1 ∧
      getHistory ls1 = .ok (historyToJS (⟨now, longURL, shortURL, date, 0⟩ :: h)) := by
  have hsafe := getHistory_safe ls h hwf
  refine ⟨_, saveToHistory_history ls h now date longURL shortURL hwf, ?_⟩
  apply getHistory_stored ls
  intro r hr
  rcases List.mem_cons.mp hr with e | e
  · subst e
    exact ⟨hnow, Nat.zero_le _⟩
  · exact hsafe r e

theorem saveToHistory_then_getHistory_witness :
    getHistory sampleStorage = .ok (historyToJS [sampleRecord]) ∧ 1700000360000 ≤ maxSafe ∧
    ∃ ls1, saveToHistory 1700000360000 (js "2023-11-14T22:19:20.000Z") sampleStorage
        (js "https://example.com/b") (js "https://is.gd/xyz") = .ok ls1 ∧
      getHistory ls1 = .ok (historyToJS
        (⟨1700000360000, js "https://example.com/b", js "https://is.gd/xyz",
          js "2023-11-14T22:19:20.000Z", 0⟩ :: [sampleRecord])) :=
  ⟨rfl, by decide,
    saveToHistory_then_getHistory sampleStorage [sampleRecord] 1700000360000
      (js "2023-11-14T22:19:20.000Z") (js "https://example.com/b") (js "https://is.gd/xyz")
      rfl (by decide)⟩

/-- C6, as stated, fails: two appends at the same clock reading, starting from the empty
storage, leave two records with the same id. -/
theorem saveToHistory_same_clock_same_id :
    saveToHistory 1700000000000 (js "2023-11-14T22:13:20.000Z") ⟨none, none⟩
        (js "https://example.com/a") (js "https://tinyurl.com/abc")
      = .ok ⟨some (stringify (historyToJS [firstAppend])), none⟩ ∧
    saveToHistory 1700000000000 (js "2023-11-14T22:13:20.000Z")
        ⟨some (stringify (historyToJS [firstAppend])), none⟩
        (js "https://example.com/b") (js "https://is.gd/xyz")
      = .ok ⟨some (stringify (historyToJS [secondAppend, firstAppend])), none⟩ ∧
    getHistory ⟨some (stringify (historyToJS [secondAppend, firstAppend])), none⟩
      = .ok (historyToJS [secondAppend, firstAppend]) ∧
    secondAppend.id = firstAppend.id :=
  ⟨rfl, rfl, rfl, rfl⟩

/-- C6, amended. The id of an appended record is the clock reading of the append. In a
well-formed history store with pairwise distinct ids, an append whose clock reading differs
from every id in the store puts that reading in front of the ids and keeps them pairwise
distinct; `deleteHistoryItem`, click recording and `clearHistory` keep them pairwise
distinct without a condition on the clock. -/
theorem ids_distinct_preserved (ls : Storage) (h : List HistoryRecord)
    (hwf : getHistory ls = .ok (historyToJS h)) (hnd : (h.map (fun r => r.id)).Nodup) :
    (∀ (now : Nat) (date longURL shortURL : JSString), now ≤ maxSafe →
      now ∉ h.map (fun r => r.id) →
      ∃ ls1 h1, saveToHistory now date ls longURL shortURL = .ok ls1 ∧
        getHistory ls1 = .ok (historyToJS h1) ∧
        h1.map (fun r => r.id) = now :: h.map (fun r => r.id) ∧
        (h1.map (fun r => r.id)).Nodup) ∧
    (∀ id : Int, ∃ ls1 h1, deleteHistoryItem id ls = .ok ls1 ∧
      getHistory ls1 = .ok (historyToJS h1) ∧ (h1.map (fun r => r.id)).Nodup) ∧
    (∀ url : JSString, (∀ r ∈ h, r.clicks < maxSafe) →
      ∃ ls1 h1, recordClick url ls = .ok ls1 ∧
        getHistory ls1 = .ok (historyToJS h1) ∧ (h1.map (fun r => r.id)).Nodup) ∧
    (∀ confirmed : Bool, ∃ h1, getHistory (clearHistory confirmed ls) = .ok (historyToJS h1) ∧
      (h1.map (fun r => r.id)).Nodup) := by
  have hsafe := getHistory_safe ls h hwf
  refine ⟨?_, ?_, ?_, ?_⟩
  · intro now date longURL shortURL hnow hfresh
    refine ⟨_, ⟨now, longURL, shortURL, date, 0⟩ :: h,
      saveToHistory_history ls h now date longURL shortURL hwf, ?_, rfl, ?_⟩
    · apply getHistory_stored ls
      intro r hr
      rcases List.mem_cons.mp hr with e | e
      · subst e
        exact ⟨hnow, Nat.zero_le _⟩
      · exact hsafe r e
    · exact List.nodup_cons.mpr ⟨hfresh, hnd⟩
  · intro id
    refine ⟨_, h.filter (fun r => decide ((r.id : Int) ≠ id)),
      deleteHistoryItem_history ls h id hwf, ?_, ?_⟩
    · exact getHistory_stored ls _ (filter_safe h _ hsafe)
    · exact (List.filter_sublist h).map (fun r => r.id) |>.nodup hnd
  · intro url hclicks
    obtain ⟨ls1, h1, h2, _⟩ := recordClick_history ls h url hwf hsafe hclicks
    refine ⟨ls1, clickFirst url h, h1, h2, ?_⟩
    rw [clickFirst_ids]
    exact hnd
  · intro confirmed
    cases confirmed with
    | false => exact ⟨h, hwf, hnd⟩
    | true => exact ⟨[], rfl, List.nodup_nil⟩

theorem ids_distinct_preserved_witness :
    getHistory sampleStorage = .ok (historyToJS [sampleRecord]) ∧
    ([sampleRecord].map (fun r => r.id)).Nodup ∧
    1700000360000 ≤ maxSafe ∧ 1700000360000 ∉ [sampleRecord].map (fun r => r.id) ∧
    ∃ ls1 h1, saveToHistory 1700000360000 (js "2023-11-14T22:19:20.000Z") sampleStorage
        (js "https://example.com/b") (js "https://is.gd/xyz") = .ok ls1 ∧
      getHistory ls1 = .ok (historyToJS h1) ∧
      h1.map (fun r => r.id) = 1700000360000 :: [sampleRecord].map (fun r => r.id) ∧
      (h1.map (fun r => r.id)).Nodup :=
  ⟨rfl, by decide, by decide, by decide,
    (ids_distinct_preserved sampleStorage [sampleRecord] rfl (by decide)).1
      1700000360000 (js "2023-11-14T22:19:20.000Z") (js "https://example.com/b")
      (js "https://is.gd/xyz") (by decide) (by decide)⟩

/-- C7. In a well-formed history store, one on which `getHistory` returns the records `h`,
with click counters below 2^53 (where adding 1 is exact), recording a click on `url`
changes exactly the first (most recent) record whose `shortURL` equals `url`: its clicks
grow by exactly 1, its other fields, every other record (older records with the same
`shortURL` included) and the order stay; when no record has that `shortURL`, the storage is
left as it was. -/
theorem recordClick_spec (ls : Storage) (h : List HistoryRecord) (url : JSString)
    (hwf : getHistory ls = .ok (historyToJS h)) (hclicks : ∀ r ∈ h, r.clicks < maxSafe) :
    ((∀ r ∈ h, r.shortURL ≠ url) → recordClick url ls = .ok ls) ∧
    (∀ (pre : List HistoryRecord) (r : HistoryRecord) (post : List HistoryRecord),
      h = pre ++ r :: post → (∀ x ∈ pre, x.shortURL ≠ url) → r.shortURL = url →
      ∃ ls1, recordClick url ls = .ok ls1 ∧
        getHistory ls1
          = .ok (historyToJS (pre ++ { r with clicks := r.clicks + 1 } :: post))) := by
  obtain ⟨ls1, h1, h2, h3⟩ :=
    recordClick_history ls h url hwf (getHistory_safe ls h hwf) hclicks
  constructor
  · intro hall
    rw [h1, h3 hall]
  · intro pre r post hsplit hpre hr
    refine ⟨ls1, h1, ?_⟩
    rw [h2, hsplit, clickFirst_split url pre r post hpre hr]

theorem recordClick_spec_witness :
    getHistory sampleStorage = .ok (historyToJS [sampleRecord]) ∧
    (∀ r ∈ [sampleRecord], r.clicks < maxSafe) ∧
    ∃ ls1, recordClick (js "https://tinyurl.com/abc") sampleStorage = .ok ls1 ∧
      getHistory ls1 = .ok (historyToJS
        ([] ++ { sampleRecord with clicks := sampleRecord.clicks + 1 } :: [])) :=
  have hclicks : ∀ r ∈ [sampleRecord], r.clicks < maxSafe := by
    intro r hr
    rw [List.mem_singleton] at hr
    subst hr
    decide
  ⟨rfl, hclicks,
    (recordClick_spec sampleStorage [sampleRecord] (js "https://tinyurl.com/abc") rfl
      hclicks).2 [] sampleRecord [] rfl
      (fun _ hx => absurd hx (List.not_mem_nil _)) rfl⟩

/-- C8. For a mapping store, one whose `customMappings` entry reads as the pairs `m`,
`createCustomURL` returns `origin + "/" + alias` (for every alias, empty or not);
afterwards the stored `customMappings` object gives `longURL` for that key, whatever it
gave before, and gives for every other key what it gave before. -/
theorem createCustomURL_spec (origin : JSString) (ls : Storage) (m : List (JSString × JSString))
    (longURL aliasText : JSString)
    (hwf : getMappings ls = .ok (mappingToJS m)) :
    ∃ ls1 members, createCustomURL origin ls longURL aliasText
        = .ok (origin ++ js "/" ++ aliasText, ls1) ∧
      getMappings ls1 = .ok (.obj members) ∧
      lookup members (origin ++ js "/" ++ aliasText) = some (.str longURL) ∧
      ∀ k : JSString, k ≠ origin ++ js "/" ++ aliasText →
        lookup members k = lookup (m.map mappingMember) k := by
  have hnd := getMappings_nodup ls m hwf
  have hcreate : createCustomURL origin ls longURL aliasText
      = .ok (origin ++ js "/" ++ aliasText,
          ⟨ls.urlHistory, some (stringify
            (mappingToJS (setMapping m (origin ++ js "/" ++ aliasText) longURL)))⟩) := by
    unfold createCustomURL
    simp only [hwf, mappingToJS, assign, setProp_mapping]
  have hne : stringify (mappingToJS (setMapping m (origin ++ js "/" ++ aliasText) longURL))
      ≠ [] := by
    cases hm : setMapping m (origin ++ js "/" ++ aliasText) longURL with
    | nil => simp [mappingToJS, stringify]
    | cons kv rest =>
      have e : stringify (mappingToJS (kv :: rest))
          = 123 :: (quote kv.1 ++ 58 :: (quote kv.2
              ++ stringifyMembers (rest.map mappingMember))) := rfl
      rw [e]
      simp
  refine ⟨_, (setMapping m (origin ++ js "/" ++ aliasText) longURL).map mappingMember,
    hcreate, ?_, ?_, ?_⟩
  · unfold getMappings
    simp only
    rw [if_neg hne]
    exact parse_stringify_mapping _ (setMapping_nodup m _ _ hnd)
  · rw [lookup_mapping, lookupMapping_set_same]
    rfl
  · intro k hk
    rw [lookup_mapping, lookup_mapping, lookupMapping_set_other m _ _ k hk]

theorem createCustomURL_spec_witness :
    getMappings sampleStorage
      = .ok (mappingToJS [(js "https://short.example/docs", js "https://example.com/old")]) ∧
    ∃ ls1 members, createCustomURL (js "https://short.example") sampleStorage
        (js "https://example.com/new") (js "docs")
        = .ok (js "https://short.example" ++ js "/" ++ js "docs", ls1) ∧
      getMappings ls1 = .ok (.obj members) ∧
      lookup members (js "https://short.example" ++ js "/" ++ js "docs")
        = some (.str (js "https://example.com/new")) ∧
      ∀ k : JSString, k ≠ js "https://short.example" ++ js "/" ++ js "docs" →
        lookup members k
          = lookup ([(js "https://short.example/docs", js "https://example.com/old")].map
              mappingMember) k :=
  ⟨rfl,
    createCustomURL_spec (js "https://short.example") sampleStorage
      [(js "https://short.example/docs", js "https://example.com/old")]
      (js "https://example.com/new") (js "docs") rfl⟩

/-- C9. In a well-formed history store, one on which `getHistory` returns the records `h`,
`deleteHistoryItem(id)` twice leaves the storage
that `deleteHistoryItem(id)` once leaves, whose history is the old one without the records
carrying `id`; for an id that no record carries the stored sequence is the old one. -/
theorem deleteHistoryItem_idempotent (ls : Storage) (h : List HistoryRecord) (id : Int)
    (hwf : getHistory ls = .ok (historyToJS h)) :
    ∃ ls1, deleteHistoryItem id ls = .ok ls1 ∧ deleteHistoryItem id ls1 = .ok ls1 ∧
      getHistory ls1 = .ok (historyToJS (h.filter (fun r => decide ((r.id : Int) ≠ id)))) ∧
      ((∀ r ∈ h, (r.id : Int) ≠ id) → getHistory ls1 = .ok (historyToJS h)) := by
  have hget := getHistory_stored ls (h.filter (fun r => decide ((r.id : Int) ≠ id)))
    (filter_safe h _ (getHistory_safe ls h hwf))
  refine ⟨_, deleteHistoryItem_history ls h id hwf, ?_, hget, ?_⟩
  · rw [deleteHistoryItem_history _ _ id hget]
    simp [List.filter_filter]
  · intro hall
    rw [hget]
    congr 2
    exact List.filter_eq_self.mpr (fun r hr => by simpa using hall r hr)

theorem deleteHistoryItem_idempotent_witness :
    getHistory sampleStorage = .ok (historyToJS [sampleRecord]) ∧
    ∃ ls1, deleteHistoryItem 1700000000000 sampleStorage = .ok ls1 ∧
      deleteHistoryItem 1700000000000 ls1 = .ok ls1 ∧
      getHistory ls1 = .ok (historyToJS
        ([sampleRecord].filter (fun r => decide ((r.id : Int) ≠ 1700000000000)))) ∧
      ((∀ r ∈ [sampleRecord], (r.id : Int) ≠ 1700000000000) →
        getHistory ls1 = .ok (historyToJS [sampleRecord])) :=
  ⟨rfl,
    deleteHistoryItem_idempotent sampleStorage [sampleRecord] 1700000000000 rfl⟩

end URLShortener
